import Mathlib

/-
Verification development for the QuickChess game-playing core
(src/popup.js of the quick-chess-chrome-extension repository).

The rules engine (the bundled chess-logic library) is external to the
sources under verification; following the specification (section 6) it is
modelled as an abstract interface of queries and move application/undo
operations.  JavaScript numbers are modelled as exact rationals, and the
JavaScript values Infinity / -Infinity that occur in the search are
modelled by the type JVal below (rationals extended with a top and a
bottom element).  Cooperative yielding (the nodeCount-triggered await in
minimax) is a pure scheduling action with no effect on any computed
value; it is reflected by the instrumented node counter minimaxN.
-/

/-- Side colour as used by the rules engine: w = white (human), b = black
(engine). -/
inductive Color where
  | w
  | b
deriving DecidableEq

/-- Piece type characters of the rules engine: pawn, knight, bishop, rook,
queen, king. -/
inductive PieceType where
  | p
  | n
  | b
  | r
  | q
  | k
deriving DecidableEq

/-- A board square occupant as returned by the rules engine board query. -/
structure Piece where
  type : PieceType
  color : Color
deriving DecidableEq

/-- The 8 x 8 occupancy grid returned by game.board(): row 0 is rank 8,
row 7 is rank 1. -/
def Board : Type := List (List (Option Piece))

instance : DecidableEq Board := by
  unfold Board
  infer_instance

/-- Lookup of board[i][j]; out-of-range access yields an empty square
(in the source such an access is never reached). -/
def boardAt (bd : Board) (i j : Nat) : Option Piece :=
  (((bd.get? i).getD []).get? j).getD none

/-- Snapshot of every rules-engine query consumed by evaluatePosition:
the terminal-status flags, the side to move, the board occupancy and the
number of legal moves of the side to move.  Modelled from the spec: the
rules engine itself is an external collaborator (spec section 6). -/
structure PosView where
  in_checkmate : Bool
  in_stalemate : Bool
  in_threefold_repetition : Bool
  insufficient_material : Bool
  in_draw : Bool
  turn : Color
  board : Board
  movesCount : Nat
deriving DecidableEq

/-- Base piece values of getPieceValue. -/
def pieceValues : PieceType → ℤ
  | .p => 100
  | .n => 320
  | .b => 330
  | .r => 500
  | .q => 900
  | .k => 20000

/-- Piece-square table for pawns. -/
def pawnTable : List (List ℤ) :=
  [[0,  0,  0,  0,  0,  0,  0,  0],
   [50, 50, 50, 50, 50, 50, 50, 50],
   [10, 10, 20, 30, 30, 20, 10, 10],
   [5,  5, 10, 25, 25, 10,  5,  5],
   [0,  0,  0, 20, 20,  0,  0,  0],
   [5, -5,-10,  0,  0,-10, -5,  5],
   [5, 10, 10,-20,-20, 10, 10,  5],
   [0,  0,  0,  0,  0,  0,  0,  0]]

/-- Piece-square table for knights. -/
def knightTable : List (List ℤ) :=
  [[-50,-40,-30,-30,-30,-30,-40,-50],
   [-40,-20,  0,  0,  0,  0,-20,-40],
   [-30,  0, 10, 15, 15, 10,  0,-30],
   [-30,  5, 15, 20, 20, 15,  5,-30],
   [-30,  0, 15, 20, 20, 15,  0,-30],
   [-30,  5, 10, 15, 15, 10,  5,-30],
   [-40,-20,  0,  5,  5,  0,-20,-40],
   [-50,-40,-30,-30,-30,-30,-40,-50]]

/-- Piece-square table for bishops. -/
def bishopTable : List (List ℤ) :=
  [[-20,-10,-10,-10,-10,-10,-10,-20],
   [-10,  0,  0,  0,  0,  0,  0,-10],
   [-10,  0,  5, 10, 10,  5,  0,-10],
   [-10,  5,  5, 10, 10,  5,  5,-10],
   [-10,  0, 10, 10, 10, 10,  0,-10],
   [-10, 10, 10, 10, 10, 10, 10,-10],
   [-10,  5,  0,  0,  0,  0,  5,-10],
   [-20,-10,-10,-10,-10,-10,-10,-20]]

/-- Piece-square table for rooks. -/
def rookTable : List (List ℤ) :=
  [[0,  0,  0,  0,  0,  0,  0,  0],
   [5, 10, 10, 10, 10, 10, 10,  5],
   [-5,  0,  0,  0,  0,  0,  0, -5],
   [-5,  0,  0,  0,  0,  0,  0, -5],
   [-5,  0,  0,  0,  0,  0,  0, -5],
   [-5,  0,  0,  0,  0,  0,  0, -5],
   [-5,  0,  0,  0,  0,  0,  0, -5],
   [0,  0,  0,  5,  5,  0,  0,  0]]

/-- Piece-square table for queens. -/
def queenTable : List (List ℤ) :=
  [[-20,-10,-10, -5, -5,-10,-10,-20],
   [-10,  0,  0,  0,  0,  0,  0,-10],
   [-10,  0,  5,  5,  5,  5,  0,-10],
   [-5,  0,  5,  5,  5,  5,  0, -5],
   [0,  0,  5,  5,  5,  5,  0, -5],
   [-10,  5,  5,  5,  5,  5,  0,-10],
   [-10,  0,  5,  0,  0,  0,  0,-10],
   [-20,-10,-10, -5, -5,-10,-10,-20]]

/-- Piece-square table for the king (middle game). -/
def kingMiddleGameTable : List (List ℤ) :=
  [[-30,-40,-40,-50,-50,-40,-40,-30],
   [-30,-40,-40,-50,-50,-40,-40,-30],
   [-30,-40,-40,-50,-50,-40,-40,-30],
   [-30,-40,-40,-50,-50,-40,-40,-30],
   [-20,-30,-30,-40,-40,-30,-30,-20],
   [-10,-20,-20,-20,-20,-20,-20,-10],
   [20, 20,  0,  0,  0,  0, 20, 20],
   [20, 30, 10,  0,  0, 10, 30, 20]]

/-- table[tableRow][col] lookup (always in range in the source). -/
def tableAt (t : List (List ℤ)) (r c : Nat) : ℤ :=
  (t.getD r []).getD c 0

/-- getPieceValue of popup.js: base value plus the positional bonus, the
table being read rank-mirrored (7 - row) for white pieces. -/
def getPieceValue (piece : Piece) (row col : Nat) : ℤ :=
  let baseValue := pieceValues piece.type
  let table :=
    match piece.type with
    | .p => pawnTable
    | .n => knightTable
    | .b => bishopTable
    | .r => rookTable
    | .q => queenTable
    | .k => kingMiddleGameTable
  let tableRow := match piece.color with
    | .b => row
    | .w => 7 - row
  let positionalValue := tableAt table tableRow col
  baseValue + positionalValue

/-- The material-and-positional double loop of evaluatePosition: the
value of each occupied square is added for black pieces and subtracted
for white pieces. -/
def materialScore (bd : Board) : ℤ :=
  (List.range 8).foldl (fun score i =>
    (List.range 8).foldl (fun score j =>
      match boardAt bd i j with
      | some piece =>
          let pieceValue := getPieceValue piece i j
          score + (if piece.color = Color.b then pieceValue else -pieceValue)
      | none => score) score) 0

/-- First king of the given colour in row-major scan order (the source
breaks out of both loops at the first hit). -/
def findKing (bd : Board) (color : Color) : Option (Nat × Nat) :=
  (List.range 8).findSome? (fun i =>
    (List.range 8).findSome? (fun j =>
      match boardAt bd i j with
      | some pc => if pc.type = PieceType.k ∧ pc.color = color then some (i, j) else none
      | none => none))

/-- evaluateKingSafety of popup.js: +10 per own pawn on the three shield
squares one rank in front of the king (direction depends on colour). -/
def evaluateKingSafety (bd : Board) (color : Color) : ℤ :=
  match findKing bd color with
  | none => 0
  | some (ki, kj) =>
      let direction : ℤ := if color = Color.w then -1 else 1
      let shieldRow : ℤ := (ki : ℤ) + direction
      if 0 ≤ shieldRow ∧ shieldRow < 8 then
        ([-1, 0, 1] : List ℤ).foldl (fun safety colOffset =>
          let c : ℤ := (kj : ℤ) + colOffset
          if 0 ≤ c ∧ c < 8 then
            match boardAt bd shieldRow.toNat c.toNat with
            | some pc =>
                if pc.type = PieceType.p ∧ pc.color = color then safety + 10 else safety
            | none => safety
          else safety) 0
      else 0

/-- Whether the square holds a pawn of the given colour. -/
def isPawnOf (bd : Board) (row col : Nat) (color : Color) : Bool :=
  match boardAt bd row col with
  | some pc => decide (pc.type = PieceType.p ∧ pc.color = color)
  | none => false

/-- evaluatePawnStructure of popup.js: -10 per doubled pawn beyond the
first on a file, -15 per isolated file holding at least one pawn. -/
def evaluatePawnStructure (bd : Board) (color : Color) : ℤ :=
  (List.range 8).foldl (fun score col =>
    let pawnsInCol :=
      ((List.range 8).filter (fun row => isPawnOf bd row col color)).length
    let hasPawnInAdjacentCol :=
      ([(col : ℤ) - 1, (col : ℤ) + 1]).any (fun adjacentCol =>
        if 0 ≤ adjacentCol ∧ adjacentCol < 8 then
          (List.range 8).any (fun row => isPawnOf bd row adjacentCol.toNat color)
        else false)
    let score := if pawnsInCol > 1 then score - 10 * ((pawnsInCol : ℤ) - 1) else score
    let score :=
      if pawnsInCol > 0 ∧ hasPawnInAdjacentCol = false then score - 15 else score
    score) 0

/-- evaluatePosition of popup.js, as a function of the rules-engine
snapshot it queries.  Checkmate short-circuits to plus or minus 10000
(plus when black, the engine side, is the side to move), any drawn
terminal state yields 0, and otherwise material, mobility (0.1 per legal
move of the side to move), king safety and pawn structure are summed,
always as black minus white. -/
def evaluatePosition (v : PosView) : ℚ :=
  if v.in_checkmate then (if v.turn = Color.b then 10000 else -10000)
  else if v.in_stalemate || v.in_threefold_repetition ||
      v.insufficient_material || v.in_draw then 0
  else
    let score : ℚ := (materialScore v.board : ℤ)
    let currentMoves := v.movesCount
    let score :=
      if v.turn = Color.b then score + (currentMoves : ℚ) * (0.1 : ℚ)
      else score - (currentMoves : ℚ) * (0.1 : ℚ)
    let score := score +
      ((evaluateKingSafety v.board Color.b : ℤ) - (evaluateKingSafety v.board Color.w : ℤ) : ℤ)
    let score := score +
      ((evaluatePawnStructure v.board Color.b : ℤ) -
        (evaluatePawnStructure v.board Color.w : ℤ) : ℤ)
    score

/-- JavaScript search values: rationals together with -Infinity (bottom)
and +Infinity (top), with the order and lattice structure of
WithBot (WithTop Rat). -/
abbrev JVal : Type := WithBot (WithTop ℚ)

/-- A finite JavaScript number as a search value. -/
def jfin (x : ℚ) : JVal := ((x : WithTop ℚ) : WithBot (WithTop ℚ))

/-- JavaScript unary negation on search values: negation swaps the two
infinities and negates finite values. -/
def jneg (x : JVal) : JVal :=
  WithBot.recBotCoe (⊤ : JVal)
    (fun y => WithTop.recTopCoe (⊥ : JVal) (fun q => jfin (-q)) y) x

/-- The rules-engine interface consumed by the search core, modelled from
the spec (section 6): legal-move enumeration, fallible move application
(returning none when the engine rejects the move, in which case the
position is unchanged), undo of the most recent move, terminal-status
query, the evaluation snapshot of the current position, and the
captured-piece flag carried by each move. -/
structure RulesApi (μ σ : Type) where
  moves : σ → List μ
  applyMove : σ → μ → Option σ
  undo : σ → σ
  game_over : σ → Bool
  view : σ → PosView
  captured : μ → Bool

/-- The engine accepts every move of its own legal-move enumeration
(spec section 4.3 calls rejection a defensive, unreachable case). -/
def Honest {μ σ : Type} (api : RulesApi μ σ) : Prop :=
  ∀ s m, m ∈ api.moves s → (api.applyMove s m).isSome = true

/-- Undoing the most recently applied move restores the prior state
exactly (spec section 6). -/
def UndoLaw {μ σ : Type} (api : RulesApi μ σ) : Prop :=
  ∀ s m s', api.applyMove s m = some s' → api.undo s' = s

/-- Swap of the entries at positions i and j of an array; out-of-range
indices leave the array unchanged (never reached in the source, where
j ≤ i < length always holds). -/
def swapL {α : Type} (a : List α) (i j : Nat) : List α :=
  match a.get? i, a.get? j with
  | some x, some y => (a.set i y).set j x
  | _, _ => a

/-- The Fisher-Yates loop of shuffleArray, indexed by the loop variable i
counting down (the body runs for i = length - 1 down to 1). -/
def fyIdx {α : Type} (idx : Nat → Nat) : Nat → List α → List α
  | 0, a => a
  | i + 1, a => fyIdx idx i (swapL a (i + 1) (idx (i + 1)))

/-- The index floor(rand i * (i + 1)) drawn at loop position i, where
rand i models the value returned by the i-th Math.random() call. -/
def randIdx (rand : Nat → ℚ) (i : Nat) : Nat := (⌊rand i * ((i : ℚ) + 1)⌋).toNat

/-- shuffleArray of popup.js: in-place Fisher-Yates driven by one
Math.random() draw per loop position. -/
def shuffleArray {α : Type} (rand : Nat → ℚ) (a : List α) : List α :=
  fyIdx (randIdx rand) (a.length - 1) a

/-- orderMoves of popup.js: captures first, then the rest, each group
shuffled (rA and rB model the Math.random() draws consumed by the two
shuffleArray calls). -/
def orderMoves {μ σ : Type} (api : RulesApi μ σ) (rA rB : Nat → ℚ) (moves : List μ) :
    List μ :=
  let captures := moves.filter (fun m => api.captured m)
  let others := moves.filter (fun m => !api.captured m)
  shuffleArray rA captures ++ shuffleArray rB others

/-- The leaf value of the search: evaluatePosition on the current
snapshot, as a (finite) search value. -/
def leafVal {μ σ : Type} (api : RulesApi μ σ) (s : σ) : JVal :=
  jfin (evaluatePosition (api.view s))

/-- The maximizing for-loop of minimax: apply the move (skipping the
branch when the engine rejects it), recurse with the current window,
undo, fold the score into maxEval and alpha, and break once
beta ≤ alpha.  The recursive call ih is minimax at depth - 1; the final
game state is returned alongside the value. -/
def maxLoop {μ σ : Type} (api : RulesApi μ σ)
    (ih : JVal → JVal → Bool → σ → JVal × σ) :
    List μ → JVal → JVal → JVal → σ → JVal × σ
  | [], maxEval, _, _, s => (maxEval, s)
  | m :: rest, maxEval, alpha, beta, s =>
      match api.applyMove s m with
      | none => maxLoop api ih rest maxEval alpha beta s
      | some s1 =>
          let es := ih alpha beta false s1
          let s3 := api.undo es.2
          let maxEval1 := max maxEval es.1
          let alpha1 := max alpha es.1
          if beta ≤ alpha1 then (maxEval1, s3)
          else maxLoop api ih rest maxEval1 alpha1 beta s3

/-- The minimizing for-loop of minimax, symmetric to maxLoop: fold into
minEval and beta, break once beta ≤ alpha. -/
def minLoop {μ σ : Type} (api : RulesApi μ σ)
    (ih : JVal → JVal → Bool → σ → JVal × σ) :
    List μ → JVal → JVal → JVal → σ → JVal × σ
  | [], minEval, _, _, s => (minEval, s)
  | m :: rest, minEval, alpha, beta, s =>
      match api.applyMove s m with
      | none => minLoop api ih rest minEval alpha beta s
      | some s1 =>
          let es := ih alpha beta true s1
          let s3 := api.undo es.2
          let minEval1 := min minEval es.1
          let beta1 := min beta es.1
          if beta1 ≤ alpha then (minEval1, s3)
          else minLoop api ih rest minEval1 alpha beta1 s3

/-- The body of minimax at depth d + 1, given the depth-d search ih:
return the evaluation at a terminal position or when no legal move
exists, otherwise run the maximizing or minimizing loop over the legal
moves of the current state. -/
def minimaxStep {μ σ : Type} (api : RulesApi μ σ)
    (ih : JVal → JVal → Bool → σ → JVal × σ)
    (alpha beta : JVal) (isMaximizing : Bool) (s : σ) : JVal × σ :=
  if api.game_over s then (leafVal api s, s)
  else
    let ms := api.moves s
    if ms.isEmpty then (leafVal api s, s)
    else if isMaximizing then maxLoop api ih ms ⊥ alpha beta s
    else minLoop api ih ms ⊤ alpha beta s

/-- minimax of popup.js, with the mutable game threaded explicitly: the
result pairs the score with the game state after the call.  Depth 0
returns the evaluation directly (in the source the depth === 0 test
precedes the terminal test inside one disjunction; at depth 0 both yield
the same evaluation call).  The nodeCount yield is a pure scheduling
action and does not touch the computed value; minimaxN below mirrors the
counter. -/
def minimax {μ σ : Type} (api : RulesApi μ σ) (depth : Nat) :
    JVal → JVal → Bool → σ → JVal × σ :=
  Nat.rec (motive := fun _ => JVal → JVal → Bool → σ → JVal × σ)
    (fun _ _ _ s => (leafVal api s, s))
    (fun _ ih => minimaxStep api ih)
    depth

/-- The root for-loop of findBestMove: apply the move (the source has no
rejection check at the root; a rejected application leaves the state
unchanged), score it as the negation of minimax with the negated window,
undo, keep the move on strict improvement, raise alpha, and break once
alpha ≥ beta. -/
def rootLoop {μ σ : Type} (api : RulesApi μ σ)
    (mm : JVal → JVal → Bool → σ → JVal × σ) :
    List μ → Option μ → JVal → JVal → JVal → σ → Option μ × σ
  | [], bestMove, _, _, _, s => (bestMove, s)
  | m :: rest, bestMove, bestValue, alpha, beta, s =>
      let s1 := (api.applyMove s m).getD s
      let es := mm (jneg beta) (jneg alpha) false s1
      let value := jneg es.1
      let s3 := api.undo es.2
      let bm1 := if bestValue < value then some m else bestMove
      let bv1 := if bestValue < value then value else bestValue
      let alpha1 := max alpha value
      if beta ≤ alpha1 then (bm1, s3)
      else rootLoop api mm rest bm1 bv1 alpha1 beta s3

/-- findBestMove of popup.js: null when no legal move exists, otherwise
the best root move over the ordered move list, with alpha starting at
-Infinity, beta fixed at +Infinity and each root move scored by the
negated recursive search.  The mutable game is threaded explicitly. -/
def findBestMove {μ σ : Type} (api : RulesApi μ σ) (rA rB : Nat → ℚ)
    (depth : Nat) (s : σ) : Option μ × σ :=
  let ms := api.moves s
  if ms.isEmpty then (none, s)
  else
    let orderedMoves := orderMoves api rA rB ms
    rootLoop api (minimax api (depth - 1)) orderedMoves none ⊥ ⊥ ⊤ s

/-- getEasyMove of popup.js: with a capture available and the first
random draw below 0.3, pick the capture indexed by the second draw;
otherwise pick the move indexed by the third draw from the full list
(r1, r2, r3 model the Math.random() values). -/
def getEasyMove {μ σ : Type} (api : RulesApi μ σ) (r1 r2 r3 : ℚ)
    (moves : List μ) : Option μ :=
  let captures := moves.filter (fun m => api.captured m)
  if captures.length > 0 ∧ r1 < (0.3 : ℚ) then
    captures.get? (⌊r2 * (captures.length : ℚ)⌋).toNat
  else
    moves.get? (⌊r3 * (moves.length : ℚ)⌋).toNat

/-- getMediumMove of popup.js: search to depth 2. -/
def getMediumMove {μ σ : Type} (api : RulesApi μ σ) (rA rB : Nat → ℚ) (s : σ) :
    Option μ × σ :=
  findBestMove api rA rB 2 s

/-- getHardMove of popup.js: search to depth 3. -/
def getHardMove {μ σ : Type} (api : RulesApi μ σ) (rA rB : Nat → ℚ) (s : σ) :
    Option μ × σ :=
  findBestMove api rA rB 3 s

/-- getGrandmasterMove of popup.js: search to depth 4. -/
def getGrandmasterMove {μ σ : Type} (api : RulesApi μ σ) (rA rB : Nat → ℚ) (s : σ) :
    Option μ × σ :=
  findBestMove api rA rB 4 s

/-- The closed difficulty enumeration. -/
inductive Difficulty where
  | easy
  | medium
  | hard
  | grandmaster
deriving DecidableEq

/-- The difficulty dispatch of makeAIMove: no move when the position has
no legal moves, otherwise the strategy selected by the difficulty (the
easy strategy leaves the game state untouched). -/
def selectMoveByDifficulty {μ σ : Type} (api : RulesApi μ σ)
    (r1 r2 r3 : ℚ) (rA rB : Nat → ℚ) (d : Difficulty) (s : σ) : Option μ × σ :=
  let possibleMoves := api.moves s
  if possibleMoves.isEmpty then (none, s)
  else
    match d with
    | .easy => (getEasyMove api r1 r2 r3 possibleMoves, s)
    | .medium => getMediumMove api rA rB s
    | .hard => getHardMove api rA rB s
    | .grandmaster => getGrandmasterMove api rA rB s

/-- A search value is finite when it is neither -Infinity nor +Infinity. -/
def IsFin (x : JVal) : Prop := ∃ q : ℚ, x = jfin q

/-- Pure value of the maximizing minimax loop: identical to maxLoop except
that the game state, being restored by every undo, is passed unchanged. -/
def maxLoopV {μ σ : Type} (api : RulesApi μ σ)
    (ih : JVal → JVal → Bool → σ → JVal) :
    List μ → JVal → JVal → JVal → σ → JVal
  | [], maxEval, _, _, _ => maxEval
  | m :: rest, maxEval, alpha, beta, s =>
      match api.applyMove s m with
      | none => maxLoopV api ih rest maxEval alpha beta s
      | some s1 =>
          let v := ih alpha beta false s1
          let maxEval1 := max maxEval v
          let alpha1 := max alpha v
          if beta ≤ alpha1 then maxEval1
          else maxLoopV api ih rest maxEval1 alpha1 beta s

/-- Pure value of the minimizing minimax loop. -/
def minLoopV {μ σ : Type} (api : RulesApi μ σ)
    (ih : JVal → JVal → Bool → σ → JVal) :
    List μ → JVal → JVal → JVal → σ → JVal
  | [], minEval, _, _, _ => minEval
  | m :: rest, minEval, alpha, beta, s =>
      match api.applyMove s m with
      | none => minLoopV api ih rest minEval alpha beta s
      | some s1 =>
          let v := ih alpha beta true s1
          let minEval1 := min minEval v
          let beta1 := min beta v
          if beta1 ≤ alpha then minEval1
          else minLoopV api ih rest minEval1 alpha beta1 s

/-- One depth level of the pure value of minimax. -/
def mmABvStep {μ σ : Type} (api : RulesApi μ σ)
    (ih : JVal → JVal → Bool → σ → JVal)
    (alpha beta : JVal) (isMaximizing : Bool) (s : σ) : JVal :=
  if api.game_over s then leafVal api s
  else
    let ms := api.moves s
    if ms.isEmpty then leafVal api s
    else if isMaximizing then maxLoopV api ih ms ⊥ alpha beta s
    else minLoopV api ih ms ⊤ alpha beta s

/-- Pure value of minimax. -/
def mmABv {μ σ : Type} (api : RulesApi μ σ) (depth : Nat) :
    JVal → JVal → Bool → σ → JVal :=
  Nat.rec (motive := fun _ => JVal → JVal → Bool → σ → JVal)
    (fun _ _ _ s => leafVal api s)
    (fun _ ih => mmABvStep api ih)
    depth

/-- The maximizing fold of full-width minimax. -/
def foldMax {μ σ : Type} (api : RulesApi μ σ) (ih : Bool → σ → JVal) (s : σ)
    (l : List μ) (acc : JVal) : JVal :=
  l.foldl (fun acc m =>
    match api.applyMove s m with
    | none => acc
    | some s1 => max acc (ih false s1)) acc

/-- The minimizing fold of full-width minimax. -/
def foldMin {μ σ : Type} (api : RulesApi μ σ) (ih : Bool → σ → JVal) (s : σ)
    (l : List μ) (acc : JVal) : JVal :=
  l.foldl (fun acc m =>
    match api.applyMove s m with
    | none => acc
    | some s1 => min acc (ih true s1)) acc

/-- One depth level of full-width minimax. -/
def mmFullStep {μ σ : Type} (api : RulesApi μ σ) (ih : Bool → σ → JVal)
    (isMaximizing : Bool) (s : σ) : JVal :=
  if api.game_over s then leafVal api s
  else
    let ms := api.moves s
    if ms.isEmpty then leafVal api s
    else if isMaximizing then foldMax api ih s ms ⊥
    else foldMin api ih s ms ⊤

/-- Full-width minimax: the reference value of the search with every
break statement removed (with no break, the alpha and beta parameters
influence nothing and are dropped). -/
def mmFull {μ σ : Type} (api : RulesApi μ σ) (depth : Nat) : Bool → σ → JVal :=
  Nat.rec (motive := fun _ => Bool → σ → JVal)
    (fun _ s => leafVal api s)
    (fun _ ih => mmFullStep api ih)
    depth

/-- The maximizing minimax loop with its break statement deleted; the
alpha update is kept literally. -/
def maxLoopNB {μ σ : Type} (api : RulesApi μ σ)
    (ih : JVal → JVal → Bool → σ → JVal) :
    List μ → JVal → JVal → JVal → σ → JVal
  | [], maxEval, _, _, _ => maxEval
  | m :: rest, maxEval, alpha, beta, s =>
      match api.applyMove s m with
      | none => maxLoopNB api ih rest maxEval alpha beta s
      | some s1 =>
          let v := ih alpha beta false s1
          maxLoopNB api ih rest (max maxEval v) (max alpha v) beta s

/-- The minimizing minimax loop with its break statement deleted; the
beta update is kept literally. -/
def minLoopNB {μ σ : Type} (api : RulesApi μ σ)
    (ih : JVal → JVal → Bool → σ → JVal) :
    List μ → JVal → JVal → JVal → σ → JVal
  | [], minEval, _, _, _ => minEval
  | m :: rest, minEval, alpha, beta, s =>
      match api.applyMove s m with
      | none => minLoopNB api ih rest minEval alpha beta s
      | some s1 =>
          let v := ih alpha beta true s1
          minLoopNB api ih rest (min minEval v) alpha (min beta v) s

/-- minimax with only its two break statements deleted: the window
updates are kept literally (they feed nothing once the breaks are
gone). -/
def mmNoBreakStep {μ σ : Type} (api : RulesApi μ σ)
    (ih : JVal → JVal → Bool → σ → JVal)
    (alpha beta : JVal) (isMaximizing : Bool) (s : σ) : JVal :=
  if api.game_over s then leafVal api s
  else
    let ms := api.moves s
    if ms.isEmpty then leafVal api s
    else if isMaximizing then maxLoopNB api ih ms ⊥ alpha beta s
    else minLoopNB api ih ms ⊤ alpha beta s

/-- minimax with only the break statements deleted, by depth. -/
def mmNoBreak {μ σ : Type} (api : RulesApi μ σ) (depth : Nat) :
    JVal → JVal → Bool → σ → JVal :=
  Nat.rec (motive := fun _ => JVal → JVal → Bool → σ → JVal)
    (fun _ _ _ s => leafVal api s)
    (fun _ ih => mmNoBreakStep api ih)
    depth

/-- Pure value form of the root loop of findBestMove, returning the best
move together with the best value; identical to rootLoop with the
restored state passed unchanged. -/
def rootLoopABv {μ σ : Type} (api : RulesApi μ σ)
    (mm : JVal → JVal → Bool → σ → JVal) :
    List μ → Option μ → JVal → JVal → JVal → σ → Option μ × JVal
  | [], bestMove, bestValue, _, _, _ => (bestMove, bestValue)
  | m :: rest, bestMove, bestValue, alpha, beta, s =>
      let s1 := (api.applyMove s m).getD s
      let value := jneg (mm (jneg beta) (jneg alpha) false s1)
      let bm1 := if bestValue < value then some m else bestMove
      let bv1 := if bestValue < value then value else bestValue
      let alpha1 := max alpha value
      if beta ≤ alpha1 then (bm1, bv1)
      else rootLoopABv api mm rest bm1 bv1 alpha1 beta s

/-- The root loop of findBestMove with its break statement deleted (the
alpha update is kept literally, and feeds the child windows, which are
inert once every break is gone). -/
def rootLoopNB {μ σ : Type} (api : RulesApi μ σ)
    (mm : JVal → JVal → Bool → σ → JVal) :
    List μ → Option μ → JVal → JVal → JVal → σ → Option μ × JVal
  | [], bestMove, bestValue, _, _, _ => (bestMove, bestValue)
  | m :: rest, bestMove, bestValue, alpha, beta, s =>
      let s1 := (api.applyMove s m).getD s
      let value := jneg (mm (jneg beta) (jneg alpha) false s1)
      let bm1 := if bestValue < value then some m else bestMove
      let bv1 := if bestValue < value then value else bestValue
      rootLoopNB api mm rest bm1 bv1 (max alpha value) beta s

/-- The move/value result of the pruning findBestMove, in pure form. -/
def findBestMoveVal {μ σ : Type} (api : RulesApi μ σ) (rA rB : Nat → ℚ)
    (depth : Nat) (s : σ) : Option μ × JVal :=
  let ms := api.moves s
  if ms.isEmpty then (none, ⊥)
  else rootLoopABv api (mmABv api (depth - 1)) (orderMoves api rA rB ms) none ⊥ ⊥ ⊤ s

/-- The move/value result of findBestMove with every break statement
removed (exhaustive full-width search), in pure form. -/
def findBestMoveValNB {μ σ : Type} (api : RulesApi μ σ) (rA rB : Nat → ℚ)
    (depth : Nat) (s : σ) : Option μ × JVal :=
  let ms := api.moves s
  if ms.isEmpty then (none, ⊥)
  else rootLoopNB api (mmNoBreak api (depth - 1)) (orderMoves api rA rB ms) none ⊥ ⊥ ⊤ s

/-- The full-width (no pruning) value of a single root move: apply it and
take the negation of the full-width minimax of the child. -/
def rootMoveValFull {μ σ : Type} (api : RulesApi μ σ) (depth : Nat) (s : σ)
    (m : μ) : JVal :=
  jneg (mmFull api (depth - 1) false ((api.applyMove s m).getD s))

/-- The root loop of findBestMove with only the root-level break deleted
(the recursive searches keep pruning), threaded over the game state. -/
def rootLoopNoCut {μ σ : Type} (api : RulesApi μ σ)
    (mm : JVal → JVal → Bool → σ → JVal × σ) :
    List μ → Option μ → JVal → JVal → JVal → σ → Option μ × σ
  | [], bestMove, _, _, _, s => (bestMove, s)
  | m :: rest, bestMove, bestValue, alpha, beta, s =>
      let s1 := (api.applyMove s m).getD s
      let es := mm (jneg beta) (jneg alpha) false s1
      let value := jneg es.1
      let s3 := api.undo es.2
      let bm1 := if bestValue < value then some m else bestMove
      let bv1 := if bestValue < value then value else bestValue
      rootLoopNoCut api mm rest bm1 bv1 (max alpha value) beta s3

/-- findBestMove with only the root-level break deleted. -/
def findBestMoveNoRootCut {μ σ : Type} (api : RulesApi μ σ) (rA rB : Nat → ℚ)
    (depth : Nat) (s : σ) : Option μ × σ :=
  let ms := api.moves s
  if ms.isEmpty then (none, s)
  else rootLoopNoCut api (minimax api (depth - 1)) (orderMoves api rA rB ms) none ⊥ ⊥ ⊤ s

/-- The maximizing minimax loop instrumented with the this.nodeCount
counter threaded through the recursive calls. -/
def maxLoopN {μ σ : Type} (api : RulesApi μ σ)
    (ih : JVal → JVal → Bool → σ → Nat → (JVal × σ) × Nat) :
    List μ → JVal → JVal → JVal → σ → Nat → (JVal × σ) × Nat
  | [], maxEval, _, _, s, c => ((maxEval, s), c)
  | m :: rest, maxEval, alpha, beta, s, c =>
      match api.applyMove s m with
      | none => maxLoopN api ih rest maxEval alpha beta s c
      | some s1 =>
          let r := ih alpha beta false s1 c
          let s3 := api.undo r.1.2
          let maxEval1 := max maxEval r.1.1
          let alpha1 := max alpha r.1.1
          if beta ≤ alpha1 then ((maxEval1, s3), r.2)
          else maxLoopN api ih rest maxEval1 alpha1 beta s3 r.2

/-- The minimizing minimax loop instrumented with the node counter. -/
def minLoopN {μ σ : Type} (api : RulesApi μ σ)
    (ih : JVal → JVal → Bool → σ → Nat → (JVal × σ) × Nat) :
    List μ → JVal → JVal → JVal → σ → Nat → (JVal × σ) × Nat
  | [], minEval, _, _, s, c => ((minEval, s), c)
  | m :: rest, minEval, alpha, beta, s, c =>
      match api.applyMove s m with
      | none => minLoopN api ih rest minEval alpha beta s c
      | some s1 =>
          let r := ih alpha beta true s1 c
          let s3 := api.undo r.1.2
          let minEval1 := min minEval r.1.1
          let beta1 := min beta r.1.1
          if beta1 ≤ alpha then ((minEval1, s3), r.2)
          else minLoopN api ih rest minEval1 alpha beta1 s3 r.2

/-- minimax instrumented with this.nodeCount: the counter is incremented
once at every entry (the yield that fires every 500 nodes suspends and
resumes with no change to any search state). -/
def minimaxNStep {μ σ : Type} (api : RulesApi μ σ)
    (ih : JVal → JVal → Bool → σ → Nat → (JVal × σ) × Nat)
    (alpha beta : JVal) (isMaximizing : Bool) (s : σ) (c : Nat) :
    (JVal × σ) × Nat :=
  let c1 := c + 1
  if api.game_over s then ((leafVal api s, s), c1)
  else
    let ms := api.moves s
    if ms.isEmpty then ((leafVal api s, s), c1)
    else if isMaximizing then maxLoopN api ih ms ⊥ alpha beta s c1
    else minLoopN api ih ms ⊤ alpha beta s c1

/-- minimax instrumented with this.nodeCount, by depth. -/
def minimaxN {μ σ : Type} (api : RulesApi μ σ) (depth : Nat) :
    JVal → JVal → Bool → σ → Nat → (JVal × σ) × Nat :=
  Nat.rec (motive := fun _ => JVal → JVal → Bool → σ → Nat → (JVal × σ) × Nat)
    (fun _ _ _ s c => ((leafVal api s, s), c + 1))
    (fun _ ih => minimaxNStep api ih)
    depth

/-- The root loop of findBestMove instrumented with the node counter
(the root itself does not increment; makeAIMove resets the counter to 0
before the search). -/
def rootLoopN {μ σ : Type} (api : RulesApi μ σ)
    (mm : JVal → JVal → Bool → σ → Nat → (JVal × σ) × Nat) :
    List μ → Option μ → JVal → JVal → JVal → σ → Nat → (Option μ × σ) × Nat
  | [], bestMove, _, _, _, s, c => ((bestMove, s), c)
  | m :: rest, bestMove, bestValue, alpha, beta, s, c =>
      let s1 := (api.applyMove s m).getD s
      let r := mm (jneg beta) (jneg alpha) false s1 c
      let value := jneg r.1.1
      let s3 := api.undo r.1.2
      let bm1 := if bestValue < value then some m else bestMove
      let bv1 := if bestValue < value then value else bestValue
      let alpha1 := max alpha value
      if beta ≤ alpha1 then ((bm1, s3), r.2)
      else rootLoopN api mm rest bm1 bv1 alpha1 beta s3 r.2

/-- findBestMove instrumented with the node counter, starting from the
reset counter value 0. -/
def findBestMoveN {μ σ : Type} (api : RulesApi μ σ) (rA rB : Nat → ℚ)
    (depth : Nat) (s : σ) : (Option μ × σ) × Nat :=
  let ms := api.moves s
  if ms.isEmpty then ((none, s), 0)
  else rootLoopN api (minimaxN api (depth - 1)) (orderMoves api rA rB ms) none ⊥ ⊥ ⊤ s 0

/-- The node budget determined by the depth and a branching bound: one
node at depth zero and one node plus at most B child searches above. -/
def nodeBound (B : Nat) : Nat → Nat
  | 0 => 1
  | d + 1 => 1 + B * nodeBound B d

/-- The evaluation leaf when the rules-engine snapshot query can fail:
an engine failure surfaces as an exception carrying the game state at
the point of the throw. -/
def leafValE {σ : Type} (viewE : σ → Except Unit PosView)
    (s : σ) : Except σ (JVal × σ) :=
  match viewE s with
  | .ok v => .ok (jfin (evaluatePosition v), s)
  | .error _ => .error s

/-- The maximizing minimax loop over a fallible engine: a failure in the
recursive call propagates immediately; the pending undo of the applied
move is skipped, exactly as in the source, which has no try/finally
around the apply/recurse/undo sequence. -/
def maxLoopE {μ σ : Type} (api : RulesApi μ σ)
    (ih : JVal → JVal → Bool → σ → Except σ (JVal × σ)) :
    List μ → JVal → JVal → JVal → σ → Except σ (JVal × σ)
  | [], maxEval, _, _, s => .ok (maxEval, s)
  | m :: rest, maxEval, alpha, beta, s =>
      match api.applyMove s m with
      | none => maxLoopE api ih rest maxEval alpha beta s
      | some s1 =>
          match ih alpha beta false s1 with
          | .error e => .error e
          | .ok es =>
              let s3 := api.undo es.2
              let maxEval1 := max maxEval es.1
              let alpha1 := max alpha es.1
              if beta ≤ alpha1 then .ok (maxEval1, s3)
              else maxLoopE api ih rest maxEval1 alpha1 beta s3

/-- The minimizing minimax loop over a fallible engine. -/
def minLoopE {μ σ : Type} (api : RulesApi μ σ)
    (ih : JVal → JVal → Bool → σ → Except σ (JVal × σ)) :
    List μ → JVal → JVal → JVal → σ → Except σ (JVal × σ)
  | [], minEval, _, _, s => .ok (minEval, s)
  | m :: rest, minEval, alpha, beta, s =>
      match api.applyMove s m with
      | none => minLoopE api ih rest minEval alpha beta s
      | some s1 =>
          match ih alpha beta true s1 with
          | .error e => .error e
          | .ok es =>
              let s3 := api.undo es.2
              let minEval1 := min minEval es.1
              let beta1 := min beta es.1
              if beta1 ≤ alpha then .ok (minEval1, s3)
              else minLoopE api ih rest minEval1 alpha beta1 s3

/-- minimax over a fallible engine: exceptions from the recursion
propagate with no cleanup. -/
def minimaxEStep {μ σ : Type} (api : RulesApi μ σ)
    (viewE : σ → Except Unit PosView)
    (ih : JVal → JVal → Bool → σ → Except σ (JVal × σ))
    (alpha beta : JVal) (isMaximizing : Bool) (s : σ) : Except σ (JVal × σ) :=
  if api.game_over s then leafValE viewE s
  else
    let ms := api.moves s
    if ms.isEmpty then leafValE viewE s
    else if isMaximizing then maxLoopE api ih ms ⊥ alpha beta s
    else minLoopE api ih ms ⊤ alpha beta s

/-- minimax over a fallible engine, by depth. -/
def minimaxE {μ σ : Type} (api : RulesApi μ σ) (viewE : σ → Except Unit PosView)
    (depth : Nat) : JVal → JVal → Bool → σ → Except σ (JVal × σ) :=
  Nat.rec (motive := fun _ => JVal → JVal → Bool → σ → Except σ (JVal × σ))
    (fun _ _ _ s => leafValE viewE s)
    (fun _ ih => minimaxEStep api viewE ih)
    depth

/-- The root loop of findBestMove over a fallible engine: a failure in
the recursive search propagates before the undo of the root move runs. -/
def rootLoopE {μ σ : Type} (api : RulesApi μ σ)
    (mm : JVal → JVal → Bool → σ → Except σ (JVal × σ)) :
    List μ → Option μ → JVal → JVal → JVal → σ → Except σ (Option μ × σ)
  | [], bestMove, _, _, _, s => .ok (bestMove, s)
  | m :: rest, bestMove, bestValue, alpha, beta, s =>
      let s1 := (api.applyMove s m).getD s
      match mm (jneg beta) (jneg alpha) false s1 with
      | .error e => .error e
      | .ok es =>
          let value := jneg es.1
          let s3 := api.undo es.2
          let bm1 := if bestValue < value then some m else bestMove
          let bv1 := if bestValue < value then value else bestValue
          let alpha1 := max alpha value
          if beta ≤ alpha1 then .ok (bm1, s3)
          else rootLoopE api mm rest bm1 bv1 alpha1 beta s3

/-- findBestMove over a fallible engine. -/
def findBestMoveE {μ σ : Type} (api : RulesApi μ σ)
    (viewE : σ → Except Unit PosView) (rA rB : Nat → ℚ) (depth : Nat) (s : σ) :
    Except σ (Option μ × σ) :=
  let ms := api.moves s
  if ms.isEmpty then .ok (none, s)
  else rootLoopE api (minimaxE api viewE (depth - 1)) (orderMoves api rA rB ms) none ⊥ ⊥ ⊤ s

/-- A vector of Fisher-Yates random draws for a list of length n + 1:
the draw consumed at loop position i = k + 1 is an index in [0, i],
that is an element of Fin (k + 2). -/
abbrev FyChoices (n : Nat) : Type := ∀ k : Fin n, Fin (k.1 + 2)

/-- The index function encoded by a choice vector: position i = k + 1
reads entry k; positions outside [1, n] are never consulted by the
shuffle of a list of length n + 1. -/
def choiceIdx {n : Nat} (v : FyChoices n) (i : Nat) : Nat :=
  if h : 1 ≤ i ∧ i ≤ n then (v ⟨i - 1, by omega⟩).1 else 0

/-- The Fisher-Yates shuffle driven by a choice vector. -/
def fyRun {α : Type} {n : Nat} (v : FyChoices n) (a : List α) : List α :=
  fyIdx (choiceIdx v) n a

/-- The choice vector actually drawn by shuffleArray from a random
stream (defined whenever the stream stays in [0, 1), which keeps every
draw within its bound). -/
def choicesOfRand (rand : Nat → ℚ) (hr : ∀ i, 0 ≤ rand i ∧ rand i < 1)
    (n : Nat) : FyChoices n :=
  fun k => ⟨randIdx rand (k.1 + 1), by
    have h1 := (hr (k.1 + 1)).2
    have hfl : ⌊rand (k.1 + 1) * (((k.1 + 1 : ℕ) : ℚ) + 1)⌋ < (k.1 + 2 : ℤ) := by
      apply Int.floor_lt.mpr
      have hpos : (0 : ℚ) < ((k.1 + 1 : ℕ) : ℚ) + 1 := by positivity
      have hx := mul_lt_mul_of_pos_right h1 hpos
      rw [one_mul] at hx
      push_cast at hx ⊢
      linarith
    unfold randIdx
    omega⟩

/-- Black rook. -/
def sbR : Option Piece := some ⟨PieceType.r, Color.b⟩
/-- Black knight. -/
def sbN : Option Piece := some ⟨PieceType.n, Color.b⟩
/-- Black bishop. -/
def sbB : Option Piece := some ⟨PieceType.b, Color.b⟩
/-- Black queen. -/
def sbQ : Option Piece := some ⟨PieceType.q, Color.b⟩
/-- Black king. -/
def sbK : Option Piece := some ⟨PieceType.k, Color.b⟩
/-- Black pawn. -/
def sbP : Option Piece := some ⟨PieceType.p, Color.b⟩
/-- White rook. -/
def swR : Option Piece := some ⟨PieceType.r, Color.w⟩
/-- White knight. -/
def swN : Option Piece := some ⟨PieceType.n, Color.w⟩
/-- White bishop. -/
def swB : Option Piece := some ⟨PieceType.b, Color.w⟩
/-- White queen. -/
def swQ : Option Piece := some ⟨PieceType.q, Color.w⟩
/-- White king. -/
def swK : Option Piece := some ⟨PieceType.k, Color.w⟩
/-- White pawn. -/
def swP : Option Piece := some ⟨PieceType.p, Color.w⟩
/-- Empty square. -/
def sE : Option Piece := none

/-- The standard starting board in the row order of game.board()
(row 0 = rank 8). -/
def startBoard : Board :=
  [[sbR, sbN, sbB, sbQ, sbK, sbB, sbN, sbR],
   [sbP, sbP, sbP, sbP, sbP, sbP, sbP, sbP],
   [sE, sE, sE, sE, sE, sE, sE, sE],
   [sE, sE, sE, sE, sE, sE, sE, sE],
   [sE, sE, sE, sE, sE, sE, sE, sE],
   [sE, sE, sE, sE, sE, sE, sE, sE],
   [swP, swP, swP, swP, swP, swP, swP, swP],
   [swR, swN, swB, swQ, swK, swB, swN, swR]]

/-- Modelled from the spec: the rules-engine snapshot of the standard
chess starting position (external to the sources under verification):
no terminal flag is set, white is to move and has the standard 20 legal
opening moves. -/
def startView : PosView :=
  { in_checkmate := false
    in_stalemate := false
    in_threefold_repetition := false
    insufficient_material := false
    in_draw := false
    turn := Color.w
    board := startBoard
    movesCount := 20 }

/-- The board after 1. f3 e5 2. g4 Qh4, the fastest checkmate (the fool
mate): white is to move and is checkmated. -/
def foolsMateBoard : Board :=
  [[sbR, sbN, sbB, sE, sbK, sbB, sbN, sbR],
   [sbP, sbP, sbP, sbP, sE, sbP, sbP, sbP],
   [sE, sE, sE, sE, sE, sE, sE, sE],
   [sE, sE, sE, sE, sbP, sE, sE, sE],
   [sE, sE, sE, sE, sE, sE, swP, sbQ],
   [sE, sE, sE, sE, sE, swP, sE, sE],
   [swP, swP, swP, swP, swP, sE, sE, swP],
   [swR, swN, swB, swQ, swK, swB, swN, swR]]

/-- Modelled from the spec: the rules-engine snapshot of the fool-mate
position, a checkmate with the human side (white) to move. -/
def foolsMateView : PosView :=
  { in_checkmate := true
    in_stalemate := false
    in_threefold_repetition := false
    insufficient_material := false
    in_draw := false
    turn := Color.w
    board := foolsMateBoard
    movesCount := 0 }

/-- A snapshot with nothing on the board and no terminal flag, whose
only varying ingredient is the legal-move count. -/
def plainView (mc : Nat) : PosView :=
  { in_checkmate := false
    in_stalemate := false
    in_threefold_repetition := false
    insufficient_material := false
    in_draw := false
    turn := Color.b
    board := []
    movesCount := mc }

/-- A small deterministic rules engine used to exercise the searches on
concrete inputs: states are histories of applied moves (depth at most
two), both available moves always apply, undo pops the history, and the
snapshot score varies with the history. -/
def toyApi : RulesApi Nat (List Nat) where
  moves s := if s.length ≥ 2 then [] else [0, 1]
  applyMove s m := some (m :: s)
  undo s := s.tail
  game_over _ := false
  view s := plainView (s.foldl (fun a x => a + 3 * x + 1) 0)
  captured m := m = 1

/-- A one-move rules engine over natural-number states whose snapshot
query fails at state 1, used to exhibit the missing cleanup on the
exception path. -/
def failApi : RulesApi Unit Nat where
  moves s := if s = 0 then [()] else []
  applyMove s _ := some (s + 1)
  undo s := s - 1
  game_over _ := false
  view _ := plainView 0
  captured _ := false

/-- The fallible snapshot of failApi: the engine throws exactly at
state 1, the child of the root. -/
def failViewE (s : Nat) : Except Unit PosView :=
  if s = 1 then .error () else .ok (plainView 0)


theorem coe_top_jval : (((⊤ : WithTop ℚ) : WithTop ℚ) : JVal) = (⊤ : JVal) := rfl

theorem jval_cases (x : JVal) : x = ⊥ ∨ x = ⊤ ∨ ∃ q : ℚ, x = jfin q := by
  induction x using WithBot.recBotCoe with
  | bot => exact Or.inl rfl
  | coe a =>
      induction a using WithTop.recTopCoe with
      | top => exact Or.inr (Or.inl coe_top_jval)
      | coe q => exact Or.inr (Or.inr ⟨q, rfl⟩)

theorem jneg_bot : jneg (⊥ : JVal) = ⊤ := rfl

theorem jneg_top : jneg (⊤ : JVal) = ⊥ := rfl

theorem jneg_jfin (q : ℚ) : jneg (jfin q) = jfin (-q) := rfl

theorem jfin_le_jfin {a b : ℚ} : jfin a ≤ jfin b ↔ a ≤ b := by
  simp [jfin]

theorem jfin_lt_jfin {a b : ℚ} : jfin a < jfin b ↔ a < b := by
  simp [jfin]

theorem bot_lt_jfin (q : ℚ) : (⊥ : JVal) < jfin q := by
  simp [jfin]

theorem jfin_lt_top (q : ℚ) : jfin q < (⊤ : JVal) := by
  rw [show (⊤ : JVal) = (((⊤ : WithTop ℚ) : WithTop ℚ) : JVal) from rfl]
  rw [show jfin q = ((q : WithTop ℚ) : JVal) from rfl]
  rw [WithBot.coe_lt_coe]
  exact WithTop.coe_lt_top q

theorem bot_lt_top_jval : (⊥ : JVal) < (⊤ : JVal) := by
  exact lt_trans (bot_lt_jfin 0) (jfin_lt_top 0)

theorem jfin_ne_bot (q : ℚ) : jfin q ≠ (⊥ : JVal) :=
  ne_of_gt (bot_lt_jfin q)

theorem jfin_ne_top (q : ℚ) : jfin q ≠ (⊤ : JVal) :=
  ne_of_lt (jfin_lt_top q)

theorem jneg_jneg (x : JVal) : jneg (jneg x) = x := by
  rcases jval_cases x with h | h | ⟨q, h⟩ <;> subst h
  · rw [jneg_bot, jneg_top]
  · rw [jneg_top, jneg_bot]
  · rw [jneg_jfin, jneg_jfin, neg_neg]

theorem not_top_le_jfin (q : ℚ) : ¬ ((⊤ : JVal) ≤ jfin q) := by
  intro h
  exact jfin_ne_top q (top_le_iff.mp h)

theorem not_jfin_le_bot (q : ℚ) : ¬ (jfin q ≤ (⊥ : JVal)) := by
  intro h
  exact jfin_ne_bot q (le_bot_iff.mp h)

theorem jneg_le_jneg {x y : JVal} : jneg x ≤ jneg y ↔ y ≤ x := by
  rcases jval_cases x with hx | hx | ⟨q, hx⟩ <;> subst hx <;>
    rcases jval_cases y with hy | hy | ⟨p, hy⟩ <;> subst hy <;>
    simp only [jneg_bot, jneg_top, jneg_jfin] <;>
    first
      | rfl
      | exact iff_of_true le_top bot_le
      | exact iff_of_true bot_le le_top
      | exact iff_of_true bot_le bot_le
      | exact iff_of_true le_top le_top
      | exact iff_of_false (not_top_le_jfin _) (not_jfin_le_bot _)
      | exact iff_of_false (not_jfin_le_bot _) (not_top_le_jfin _)
      | (rw [jfin_le_jfin, jfin_le_jfin]; exact neg_le_neg_iff)

theorem jneg_lt_jneg {x y : JVal} : jneg x < jneg y ↔ y < x := by
  rw [lt_iff_not_le, jneg_le_jneg, lt_iff_not_le]

theorem lt_jneg_iff {x y : JVal} : x < jneg y ↔ y < jneg x := by
  constructor
  · intro h
    have h2 : jneg (jneg y) < jneg x := jneg_lt_jneg.mpr h
    rw [jneg_jneg] at h2
    exact h2
  · intro h
    have h2 : jneg (jneg x) < jneg y := jneg_lt_jneg.mpr h
    rw [jneg_jneg] at h2
    exact h2

theorem jneg_le_iff {x y : JVal} : jneg x ≤ y ↔ jneg y ≤ x := by
  constructor
  · intro h
    have h2 : jneg y ≤ jneg (jneg x) := jneg_le_jneg.mpr h
    rw [jneg_jneg] at h2
    exact h2
  · intro h
    have h2 : jneg x ≤ jneg (jneg y) := jneg_le_jneg.mpr h
    rw [jneg_jneg] at h2
    exact h2

theorem isFin_jfin (q : ℚ) : IsFin (jfin q) := ⟨q, rfl⟩

theorem IsFin.ne_bot {x : JVal} (h : IsFin x) : x ≠ ⊥ := by
  obtain ⟨q, rfl⟩ := h
  exact jfin_ne_bot q

theorem IsFin.ne_top {x : JVal} (h : IsFin x) : x ≠ ⊤ := by
  obtain ⟨q, rfl⟩ := h
  exact jfin_ne_top q

theorem IsFin.jneg {x : JVal} (h : IsFin x) : IsFin (jneg x) := by
  obtain ⟨q, rfl⟩ := h
  exact ⟨-q, by rw [jneg_jfin]⟩

theorem IsFin.max_with_bot {x v : JVal} (hx : x = ⊥ ∨ IsFin x) (hv : IsFin v) :
    IsFin (max x v) := by
  rcases hx with hx | hx
  · subst hx
    rw [max_eq_right bot_le]
    exact hv
  · rcases max_choice x v with h | h
    · rw [h]; exact hx
    · rw [h]; exact hv

theorem IsFin.min_with_top {x v : JVal} (hx : x = ⊤ ∨ IsFin x) (hv : IsFin v) :
    IsFin (min x v) := by
  rcases hx with hx | hx
  · subst hx
    rw [min_eq_right le_top]
    exact hv
  · rcases min_choice x v with h | h
    · rw [h]; exact hx
    · rw [h]; exact hv

theorem cons_set_perm {α : Type} :
    ∀ (t : List α) (k : Nat) (x y : α), t.get? k = some y →
      (y :: t.set k x).Perm (x :: t) := by
  intro t
  induction t with
  | nil =>
      intro k x y h
      simp [List.get?] at h
  | cons z t ih =>
      intro k x y h
      cases k with
      | zero =>
          have hzy : z = y := by injection h
          subst hzy
          exact List.Perm.swap x z t
      | succ k =>
          exact ((List.Perm.swap z y (t.set k x)).trans
            ((ih k x y h).cons z)).trans (List.Perm.swap x z t)

theorem set_set_perm {α : Type} :
    ∀ (a : List α) (i j : Nat) (x y : α), a.get? i = some x → a.get? j = some y →
      ((a.set i y).set j x).Perm a := by
  intro a
  induction a with
  | nil =>
      intro i j x y hi hj
      simp [List.get?] at hi
  | cons z t ih =>
      intro i j x y hi hj
      cases i with
      | zero =>
          have hzx : z = x := by injection hi
          subst hzx
          cases j with
          | zero =>
              have hzy : z = y := by injection hj
              subst hzy
              exact List.Perm.refl _
          | succ j =>
              exact cons_set_perm t j z y hj
      | succ i =>
          cases j with
          | zero =>
              have hzy : z = y := by injection hj
              subst hzy
              exact cons_set_perm t i z x hi
          | succ j =>
              exact List.Perm.cons z (ih i j x y hi hj)

theorem swapL_perm {α : Type} (a : List α) (i j : Nat) : (swapL a i j).Perm a := by
  unfold swapL
  cases hi : a.get? i with
  | none => exact List.Perm.refl a
  | some x =>
      cases hj : a.get? j with
      | none => exact List.Perm.refl a
      | some y => exact set_set_perm a i j x y hi hj

theorem fyIdx_perm {α : Type} (idx : Nat → Nat) :
    ∀ (n : Nat) (a : List α), (fyIdx idx n a).Perm a := by
  intro n
  induction n with
  | zero => intro a; exact List.Perm.refl a
  | succ n ih =>
      intro a
      rw [fyIdx]
      exact (ih _).trans (swapL_perm a (n + 1) (idx (n + 1)))

theorem shuffleArray_perm {α : Type} (rand : Nat → ℚ) (a : List α) :
    (shuffleArray rand a).Perm a := by
  unfold shuffleArray
  exact fyIdx_perm _ _ _

theorem orderMoves_perm {μ σ : Type} (api : RulesApi μ σ) (rA rB : Nat → ℚ)
    (moves : List μ) : (orderMoves api rA rB moves).Perm moves := by
  unfold orderMoves
  have h1 := shuffleArray_perm rA (moves.filter (fun m => api.captured m))
  have h2 := shuffleArray_perm rB (moves.filter (fun m => !api.captured m))
  exact (h1.append h2).trans (List.filter_append_perm _ moves)

theorem orderMoves_mem {μ σ : Type} (api : RulesApi μ σ) (rA rB : Nat → ℚ)
    (moves : List μ) (m : μ) (h : m ∈ orderMoves api rA rB moves) : m ∈ moves :=
  (orderMoves_perm api rA rB moves).mem_iff.mp h

theorem orderMoves_ne_nil {μ σ : Type} (api : RulesApi μ σ) (rA rB : Nat → ℚ)
    (moves : List μ) (h : moves ≠ []) : orderMoves api rA rB moves ≠ [] := by
  intro hc
  have hlen := (orderMoves_perm api rA rB moves).length_eq
  rw [hc] at hlen
  simp at hlen
  exact h (List.length_eq_zero.mp hlen.symm)

theorem minimax_zero {μ σ : Type} (api : RulesApi μ σ) (alpha beta : JVal)
    (mx : Bool) (s : σ) : minimax api 0 alpha beta mx s = (leafVal api s, s) := rfl

theorem minimax_succ {μ σ : Type} (api : RulesApi μ σ) (d : Nat) :
    minimax api (d + 1) = minimaxStep api (minimax api d) := rfl

theorem mmABv_zero {μ σ : Type} (api : RulesApi μ σ) (alpha beta : JVal)
    (mx : Bool) (s : σ) : mmABv api 0 alpha beta mx s = leafVal api s := rfl

theorem mmABv_succ {μ σ : Type} (api : RulesApi μ σ) (d : Nat) :
    mmABv api (d + 1) = mmABvStep api (mmABv api d) := rfl

theorem mmFull_zero {μ σ : Type} (api : RulesApi μ σ) (mx : Bool) (s : σ) :
    mmFull api 0 mx s = leafVal api s := rfl

theorem mmFull_succ {μ σ : Type} (api : RulesApi μ σ) (d : Nat) :
    mmFull api (d + 1) = mmFullStep api (mmFull api d) := rfl

theorem mmNoBreak_zero {μ σ : Type} (api : RulesApi μ σ) (alpha beta : JVal)
    (mx : Bool) (s : σ) : mmNoBreak api 0 alpha beta mx s = leafVal api s := rfl

theorem mmNoBreak_succ {μ σ : Type} (api : RulesApi μ σ) (d : Nat) :
    mmNoBreak api (d + 1) = mmNoBreakStep api (mmNoBreak api d) := rfl

theorem minimaxN_zero {μ σ : Type} (api : RulesApi μ σ) (alpha beta : JVal)
    (mx : Bool) (s : σ) (c : Nat) :
    minimaxN api 0 alpha beta mx s c = ((leafVal api s, s), c + 1) := rfl

theorem minimaxN_succ {μ σ : Type} (api : RulesApi μ σ) (d : Nat) :
    minimaxN api (d + 1) = minimaxNStep api (minimaxN api d) := rfl

theorem minimaxE_zero {μ σ : Type} (api : RulesApi μ σ)
    (viewE : σ → Except Unit PosView) (alpha beta : JVal) (mx : Bool) (s : σ) :
    minimaxE api viewE 0 alpha beta mx s = leafValE viewE s := rfl

theorem minimaxE_succ {μ σ : Type} (api : RulesApi μ σ)
    (viewE : σ → Except Unit PosView) (d : Nat) :
    minimaxE api viewE (d + 1) = minimaxEStep api viewE (minimaxE api viewE d) := rfl

theorem maxLoop_pure {μ σ : Type} (api : RulesApi μ σ) (hU : UndoLaw api)
    (ih : JVal → JVal → Bool → σ → JVal × σ) (ihv : JVal → JVal → Bool → σ → JVal)
    (hih : ∀ alpha beta mx s, ih alpha beta mx s = (ihv alpha beta mx s, s)) :
    ∀ (l : List μ) (mE alpha beta : JVal) (s : σ),
      maxLoop api ih l mE alpha beta s = (maxLoopV api ihv l mE alpha beta s, s) := by
  intro l
  induction l with
  | nil => intro mE alpha beta s; rfl
  | cons m rest ihl =>
      intro mE alpha beta s
      rw [maxLoop, maxLoopV]
      cases happ : api.applyMove s m with
      | none =>
          simp only
          exact ihl mE alpha beta s
      | some s1 =>
          have hu : api.undo s1 = s := hU s m s1 happ
          simp only [hih alpha beta false s1, hu]
          by_cases hb : beta ≤ max alpha (ihv alpha beta false s1)
          · simp only [if_pos hb]
          · simp only [if_neg hb]
            exact ihl _ _ _ s

theorem minLoop_pure {μ σ : Type} (api : RulesApi μ σ) (hU : UndoLaw api)
    (ih : JVal → JVal → Bool → σ → JVal × σ) (ihv : JVal → JVal → Bool → σ → JVal)
    (hih : ∀ alpha beta mx s, ih alpha beta mx s = (ihv alpha beta mx s, s)) :
    ∀ (l : List μ) (mE alpha beta : JVal) (s : σ),
      minLoop api ih l mE alpha beta s = (minLoopV api ihv l mE alpha beta s, s) := by
  intro l
  induction l with
  | nil => intro mE alpha beta s; rfl
  | cons m rest ihl =>
      intro mE alpha beta s
      rw [minLoop, minLoopV]
      cases happ : api.applyMove s m with
      | none =>
          simp only
          exact ihl mE alpha beta s
      | some s1 =>
          have hu : api.undo s1 = s := hU s m s1 happ
          simp only [hih alpha beta true s1, hu]
          by_cases hb : min beta (ihv alpha beta true s1) ≤ alpha
          · simp only [if_pos hb]
          · simp only [if_neg hb]
            exact ihl _ _ _ s

theorem minimax_pure {μ σ : Type} (api : RulesApi μ σ) (hU : UndoLaw api) :
    ∀ (d : Nat) (alpha beta : JVal) (mx : Bool) (s : σ),
      minimax api d alpha beta mx s = (mmABv api d alpha beta mx s, s) := by
  intro d
  induction d with
  | zero => intro alpha beta mx s; rfl
  | succ d ihd =>
      intro alpha beta mx s
      rw [minimax_succ, mmABv_succ, minimaxStep, mmABvStep]
      by_cases hg : api.game_over s
      · simp only [if_pos hg]
      · simp only [if_neg hg]
        by_cases he : (api.moves s).isEmpty
        · simp only [if_pos he]
        · simp only [if_neg he]
          cases mx with
          | true => exact maxLoop_pure api hU _ _ ihd _ _ _ _ _
          | false => exact minLoop_pure api hU _ _ ihd _ _ _ _ _

theorem rootLoop_pure {μ σ : Type} (api : RulesApi μ σ) (hH : Honest api)
    (hU : UndoLaw api)
    (mm : JVal → JVal → Bool → σ → JVal × σ) (mmv : JVal → JVal → Bool → σ → JVal)
    (hmm : ∀ alpha beta mx s, mm alpha beta mx s = (mmv alpha beta mx s, s)) :
    ∀ (l : List μ) (bm : Option μ) (bv alpha beta : JVal) (s : σ),
      (∀ m ∈ l, m ∈ api.moves s) →
      rootLoop api mm l bm bv alpha beta s =
        ((rootLoopABv api mmv l bm bv alpha beta s).1, s) := by
  intro l
  induction l with
  | nil => intro bm bv alpha beta s hmem; rfl
  | cons m rest ihl =>
      intro bm bv alpha beta s hmem
      have hsome := hH s m (hmem m (List.mem_cons_self m rest))
      obtain ⟨s1, happ⟩ := Option.isSome_iff_exists.mp hsome
      have hu : api.undo s1 = s := hU s m s1 happ
      rw [rootLoop, rootLoopABv]
      simp only [happ, Option.getD_some, hmm (jneg beta) (jneg alpha) false s1, hu]
      by_cases hb : beta ≤ max alpha (jneg (mmv (jneg beta) (jneg alpha) false s1))
      · simp only [if_pos hb]
      · simp only [if_neg hb]
        exact ihl _ _ _ _ s (fun x hx => hmem x (List.mem_cons_of_mem m hx))

theorem findBestMove_pure {μ σ : Type} (api : RulesApi μ σ) (hH : Honest api)
    (hU : UndoLaw api) (rA rB : Nat → ℚ) (d : Nat) (s : σ) :
    findBestMove api rA rB d s = ((findBestMoveVal api rA rB d s).1, s) := by
  rw [findBestMove, findBestMoveVal]
  by_cases he : (api.moves s).isEmpty
  · simp only [if_pos he]
  · simp only [if_neg he]
    exact rootLoop_pure api hH hU _ _
      (fun alpha beta mx s2 => minimax_pure api hU (d - 1) alpha beta mx s2)
      _ none ⊥ ⊥ ⊤ s
      (fun m hm => orderMoves_mem api rA rB _ m hm)

theorem foldMax_nil {μ σ : Type} (api : RulesApi μ σ) (ih : Bool → σ → JVal)
    (s : σ) (acc : JVal) : foldMax api ih s [] acc = acc := rfl

theorem foldMax_cons {μ σ : Type} (api : RulesApi μ σ) (ih : Bool → σ → JVal)
    (s : σ) (m : μ) (rest : List μ) (acc : JVal) :
    foldMax api ih s (m :: rest) acc =
      foldMax api ih s rest
        (match api.applyMove s m with
         | none => acc
         | some s1 => max acc (ih false s1)) := rfl

theorem foldMin_nil {μ σ : Type} (api : RulesApi μ σ) (ih : Bool → σ → JVal)
    (s : σ) (acc : JVal) : foldMin api ih s [] acc = acc := rfl

theorem foldMin_cons {μ σ : Type} (api : RulesApi μ σ) (ih : Bool → σ → JVal)
    (s : σ) (m : μ) (rest : List μ) (acc : JVal) :
    foldMin api ih s (m :: rest) acc =
      foldMin api ih s rest
        (match api.applyMove s m with
         | none => acc
         | some s1 => min acc (ih true s1)) := rfl

theorem foldMax_ge_acc {μ σ : Type} (api : RulesApi μ σ) (ih : Bool → σ → JVal)
    (s : σ) : ∀ (l : List μ) (acc : JVal), acc ≤ foldMax api ih s l acc := by
  intro l
  induction l with
  | nil => intro acc; exact le_refl _
  | cons m rest ihl =>
      intro acc
      cases happ : api.applyMove s m with
      | none =>
          simp only [foldMax_cons, happ]
          exact ihl acc
      | some s1 =>
          simp only [foldMax_cons, happ]
          exact le_trans (le_max_left acc (ih false s1)) (ihl _)

theorem foldMin_le_acc {μ σ : Type} (api : RulesApi μ σ) (ih : Bool → σ → JVal)
    (s : σ) : ∀ (l : List μ) (acc : JVal), foldMin api ih s l acc ≤ acc := by
  intro l
  induction l with
  | nil => intro acc; exact le_refl _
  | cons m rest ihl =>
      intro acc
      cases happ : api.applyMove s m with
      | none =>
          simp only [foldMin_cons, happ]
          exact ihl acc
      | some s1 =>
          simp only [foldMin_cons, happ]
          exact le_trans (ihl _) (min_le_left acc (ih true s1))

theorem maxLoopV_fin {μ σ : Type} (api : RulesApi μ σ)
    (ihv : JVal → JVal → Bool → σ → JVal)
    (hfin : ∀ alpha beta mx t, IsFin (ihv alpha beta mx t)) :
    ∀ (l : List μ) (mE alpha beta : JVal) (s : σ),
      (∀ m ∈ l, (api.applyMove s m).isSome = true) →
      (mE = ⊥ ∨ IsFin mE) → (l ≠ [] ∨ IsFin mE) →
      IsFin (maxLoopV api ihv l mE alpha beta s) := by
  intro l
  induction l with
  | nil =>
      intro mE alpha beta s _ _ hne
      rcases hne with hne | hne
      · exact absurd rfl hne
      · exact hne
  | cons m rest ihl =>
      intro mE alpha beta s hmem hbot _
      obtain ⟨s1, happ⟩ :=
        Option.isSome_iff_exists.mp (hmem m (List.mem_cons_self m rest))
      rw [maxLoopV]
      simp only [happ]
      have hfin1 : IsFin (max mE (ihv alpha beta false s1)) :=
        IsFin.max_with_bot hbot (hfin alpha beta false s1)
      by_cases hb : beta ≤ max alpha (ihv alpha beta false s1)
      · simp only [if_pos hb]
        exact hfin1
      · simp only [if_neg hb]
        exact ihl _ _ _ s (fun x hx => hmem x (List.mem_cons_of_mem m hx))
          (Or.inr hfin1) (Or.inr hfin1)

theorem minLoopV_fin {μ σ : Type} (api : RulesApi μ σ)
    (ihv : JVal → JVal → Bool → σ → JVal)
    (hfin : ∀ alpha beta mx t, IsFin (ihv alpha beta mx t)) :
    ∀ (l : List μ) (mE alpha beta : JVal) (s : σ),
      (∀ m ∈ l, (api.applyMove s m).isSome = true) →
      (mE = ⊤ ∨ IsFin mE) → (l ≠ [] ∨ IsFin mE) →
      IsFin (minLoopV api ihv l mE alpha beta s) := by
  intro l
  induction l with
  | nil =>
      intro mE alpha beta s _ _ hne
      rcases hne with hne | hne
      · exact absurd rfl hne
      · exact hne
  | cons m rest ihl =>
      intro mE alpha beta s hmem htop _
      obtain ⟨s1, happ⟩ :=
        Option.isSome_iff_exists.mp (hmem m (List.mem_cons_self m rest))
      rw [minLoopV]
      simp only [happ]
      have hfin1 : IsFin (min mE (ihv alpha beta true s1)) :=
        IsFin.min_with_top htop (hfin alpha beta true s1)
      by_cases hb : min beta (ihv alpha beta true s1) ≤ alpha
      · simp only [if_pos hb]
        exact hfin1
      · simp only [if_neg hb]
        exact ihl _ _ _ s (fun x hx => hmem x (List.mem_cons_of_mem m hx))
          (Or.inr hfin1) (Or.inr hfin1)

theorem mmABv_fin {μ σ : Type} (api : RulesApi μ σ) (hH : Honest api) :
    ∀ (d : Nat) (alpha beta : JVal) (mx : Bool) (s : σ),
      IsFin (mmABv api d alpha beta mx s) := by
  intro d
  induction d with
  | zero => intro alpha beta mx s; exact isFin_jfin _
  | succ d ihd =>
      intro alpha beta mx s
      rw [mmABv_succ, mmABvStep]
      by_cases hg : api.game_over s
      · simp only [if_pos hg]
        exact isFin_jfin _
      · simp only [if_neg hg]
        by_cases he : (api.moves s).isEmpty
        · simp only [if_pos he]
          exact isFin_jfin _
        · simp only [if_neg he]
          have hne : api.moves s ≠ [] := by
            intro hc
            rw [hc] at he
            exact he rfl
          cases mx with
          | true =>
              exact maxLoopV_fin api _ (fun a b mx2 t => ihd a b mx2 t) _ _ _ _ s
                (fun m hm => hH s m hm) (Or.inl rfl) (Or.inl hne)
          | false =>
              exact minLoopV_fin api _ (fun a b mx2 t => ihd a b mx2 t) _ _ _ _ s
                (fun m hm => hH s m hm) (Or.inl rfl) (Or.inl hne)

theorem foldMax_fin {μ σ : Type} (api : RulesApi μ σ) (ih : Bool → σ → JVal)
    (hfin : ∀ mx t, IsFin (ih mx t)) :
    ∀ (l : List μ) (acc : JVal) (s : σ),
      (∀ m ∈ l, (api.applyMove s m).isSome = true) →
      (acc = ⊥ ∨ IsFin acc) → (l ≠ [] ∨ IsFin acc) →
      IsFin (foldMax api ih s l acc) := by
  intro l
  induction l with
  | nil =>
      intro acc s _ _ hne
      rcases hne with hne | hne
      · exact absurd rfl hne
      · exact hne
  | cons m rest ihl =>
      intro acc s hmem hbot _
      obtain ⟨s1, happ⟩ :=
        Option.isSome_iff_exists.mp (hmem m (List.mem_cons_self m rest))
      simp only [foldMax_cons, happ]
      have hfin1 : IsFin (max acc (ih false s1)) :=
        IsFin.max_with_bot hbot (hfin false s1)
      exact ihl _ s (fun x hx => hmem x (List.mem_cons_of_mem m hx))
        (Or.inr hfin1) (Or.inr hfin1)

theorem foldMin_fin {μ σ : Type} (api : RulesApi μ σ) (ih : Bool → σ → JVal)
    (hfin : ∀ mx t, IsFin (ih mx t)) :
    ∀ (l : List μ) (acc : JVal) (s : σ),
      (∀ m ∈ l, (api.applyMove s m).isSome = true) →
      (acc = ⊤ ∨ IsFin acc) → (l ≠ [] ∨ IsFin acc) →
      IsFin (foldMin api ih s l acc) := by
  intro l
  induction l with
  | nil =>
      intro acc s _ _ hne
      rcases hne with hne | hne
      · exact absurd rfl hne
      · exact hne
  | cons m rest ihl =>
      intro acc s hmem htop _
      obtain ⟨s1, happ⟩ :=
        Option.isSome_iff_exists.mp (hmem m (List.mem_cons_self m rest))
      simp only [foldMin_cons, happ]
      have hfin1 : IsFin (min acc (ih true s1)) :=
        IsFin.min_with_top htop (hfin true s1)
      exact ihl _ s (fun x hx => hmem x (List.mem_cons_of_mem m hx))
        (Or.inr hfin1) (Or.inr hfin1)

theorem mmFull_fin {μ σ : Type} (api : RulesApi μ σ) (hH : Honest api) :
    ∀ (d : Nat) (mx : Bool) (s : σ), IsFin (mmFull api d mx s) := by
  intro d
  induction d with
  | zero => intro mx s; exact isFin_jfin _
  | succ d ihd =>
      intro mx s
      rw [mmFull_succ, mmFullStep]
      by_cases hg : api.game_over s
      · simp only [if_pos hg]
        exact isFin_jfin _
      · simp only [if_neg hg]
        by_cases he : (api.moves s).isEmpty
        · simp only [if_pos he]
          exact isFin_jfin _
        · simp only [if_neg he]
          have hne : api.moves s ≠ [] := by
            intro hc
            rw [hc] at he
            exact he rfl
          cases mx with
          | true =>
              exact foldMax_fin api _ (fun mx2 t => ihd mx2 t) _ _ s
                (fun m hm => hH s m hm) (Or.inl rfl) (Or.inl hne)
          | false =>
              exact foldMin_fin api _ (fun mx2 t => ihd mx2 t) _ _ s
                (fun m hm => hH s m hm) (Or.inl rfl) (Or.inl hne)

theorem maxLoopKM {μ σ : Type} (api : RulesApi μ σ)
    (ihv : JVal → JVal → Bool → σ → JVal) (ihF : Bool → σ → JVal)
    (alpha0 beta : JVal) (s : σ)
    (hIH : ∀ (a : JVal) (s1 : σ), a < beta →
      (ihv a beta false s1 ≤ a → ihF false s1 ≤ ihv a beta false s1) ∧
      (a < ihv a beta false s1 → ihv a beta false s1 < beta →
        ihv a beta false s1 = ihF false s1) ∧
      (beta ≤ ihv a beta false s1 → ihv a beta false s1 ≤ ihF false s1)) :
    ∀ (l : List μ) (g gf a : JVal),
      gf ≤ g → g ≤ max alpha0 gf → a = max alpha0 g → a < beta →
      ((maxLoopV api ihv l g a beta s < beta →
          foldMax api ihF s l gf ≤ maxLoopV api ihv l g a beta s) ∧
        maxLoopV api ihv l g a beta s ≤ max alpha0 (foldMax api ihF s l gf) ∧
        (beta ≤ maxLoopV api ihv l g a beta s →
          maxLoopV api ihv l g a beta s ≤ foldMax api ihF s l gf)) := by
  intro l
  induction l with
  | nil =>
      intro g gf a h1 h2 ha hb
      refine ⟨fun _ => h1, h2, fun hbr => ?_⟩
      rcases le_max_iff.mp h2 with h | h
      · exfalso
        have halpha : alpha0 < beta :=
          lt_of_le_of_lt (by rw [ha]; exact le_max_left _ _) hb
        exact absurd (lt_of_le_of_lt (le_trans hbr h) halpha) (lt_irrefl beta)
      · exact h
  | cons m rest ihl =>
      intro g gf a h1 h2 ha hb
      cases happ : api.applyMove s m with
      | none =>
          simp only [maxLoopV, foldMax_cons, happ]
          exact ihl g gf a h1 h2 ha hb
      | some s1 =>
          obtain ⟨t1, t2, t3⟩ := hIH a s1 hb
          simp only [maxLoopV, foldMax_cons, happ]
          by_cases hbr : beta ≤ max a (ihv a beta false s1)
          · simp only [if_pos hbr]
            have hrb : beta ≤ ihv a beta false s1 := by
              rcases le_max_iff.mp hbr with h | h
              · exact absurd h (not_le.mpr hb)
              · exact h
            have hrf : ihv a beta false s1 ≤ ihF false s1 := t3 hrb
            have hVgf : max gf (ihF false s1) ≤
                foldMax api ihF s rest (max gf (ihF false s1)) :=
              foldMax_ge_acc api ihF s rest _
            have hgfV : gf ≤ foldMax api ihF s rest (max gf (ihF false s1)) :=
              le_trans (le_max_left _ _) hVgf
            have hfV : ihF false s1 ≤ foldMax api ihF s rest (max gf (ihF false s1)) :=
              le_trans (le_max_right _ _) hVgf
            refine ⟨fun hRb => ?_, ?_, fun _ => ?_⟩
            · exact absurd hRb (not_lt.mpr (le_trans hrb (le_max_right g _)))
            · apply max_le
              · exact le_trans h2 (max_le_max (le_refl _) hgfV)
              · exact le_trans (le_trans hrf hfV) (le_max_right _ _)
            · apply max_le
              · rcases le_max_iff.mp h2 with h | h
                · have halpha : alpha0 < beta :=
                    lt_of_le_of_lt (by rw [ha]; exact le_max_left _ _) hb
                  exact le_trans h (le_trans (le_of_lt halpha)
                    (le_trans hrb (le_trans hrf hfV)))
                · exact le_trans h hgfV
              · exact le_trans hrf hfV
          · simp only [if_neg hbr]
            have haR : max a (ihv a beta false s1) < beta := not_le.mp hbr
            have hrltb : ihv a beta false s1 < beta :=
              lt_of_le_of_lt (le_max_right _ _) haR
            have hfler : ihF false s1 ≤ ihv a beta false s1 := by
              rcases le_or_lt (ihv a beta false s1) a with hra | har
              · exact t1 hra
              · exact le_of_eq (t2 har hrltb).symm
            have hrle : ihv a beta false s1 ≤ max alpha0 (max gf (ihF false s1)) := by
              rcases le_or_lt (ihv a beta false s1) a with hra | har
              · have haux : a ≤ max alpha0 gf := by
                  rw [ha]
                  apply max_le (le_max_left _ _)
                  rw [show max alpha0 gf = max (max alpha0 alpha0) gf by rw [max_self]]
                  rw [max_assoc]
                  exact le_trans h2 (max_le_max (le_refl _) (le_max_right _ _))
                exact le_trans hra (le_trans haux
                  (max_le_max (le_refl _) (le_max_left _ _)))
              · rw [t2 har hrltb]
                exact le_trans (le_max_right gf _) (le_max_right _ _)
            have h1' : max gf (ihF false s1) ≤ max g (ihv a beta false s1) :=
              max_le_max h1 hfler
            have h2' : max g (ihv a beta false s1) ≤
                max alpha0 (max gf (ihF false s1)) := by
              apply max_le
              · exact le_trans h2 (max_le_max (le_refl _) (le_max_left _ _))
              · exact hrle
            have ha' : max a (ihv a beta false s1) =
                max alpha0 (max g (ihv a beta false s1)) := by
              rw [ha]
              exact max_assoc alpha0 g _
            exact ihl (max g (ihv a beta false s1)) (max gf (ihF false s1))
              (max a (ihv a beta false s1)) h1' h2' ha' haR

theorem minLoopKM {μ σ : Type} (api : RulesApi μ σ)
    (ihv : JVal → JVal → Bool → σ → JVal) (ihF : Bool → σ → JVal)
    (alpha0 beta0 : JVal) (s : σ)
    (hIH : ∀ (b : JVal) (s1 : σ), alpha0 < b →
      (ihv alpha0 b true s1 ≤ alpha0 → ihF true s1 ≤ ihv alpha0 b true s1) ∧
      (alpha0 < ihv alpha0 b true s1 → ihv alpha0 b true s1 < b →
        ihv alpha0 b true s1 = ihF true s1) ∧
      (b ≤ ihv alpha0 b true s1 → ihv alpha0 b true s1 ≤ ihF true s1)) :
    ∀ (l : List μ) (g gf b : JVal),
      g ≤ gf → min beta0 gf ≤ g → b = min beta0 g → alpha0 < b →
      ((alpha0 < minLoopV api ihv l g alpha0 b s →
          minLoopV api ihv l g alpha0 b s ≤ foldMin api ihF s l gf) ∧
        min beta0 (foldMin api ihF s l gf) ≤ minLoopV api ihv l g alpha0 b s ∧
        (minLoopV api ihv l g alpha0 b s ≤ alpha0 →
          foldMin api ihF s l gf ≤ minLoopV api ihv l g alpha0 b s)) := by
  intro l
  induction l with
  | nil =>
      intro g gf b h1 h2 hbmin hb
      refine ⟨fun _ => h1, h2, fun hbr => ?_⟩
      rcases min_le_iff.mp h2 with h | h
      · exfalso
        have hbeta : alpha0 < beta0 :=
          lt_of_lt_of_le hb (by rw [hbmin]; exact min_le_left _ _)
        exact absurd (lt_of_le_of_lt (le_trans h hbr) hbeta) (lt_irrefl beta0)
      · exact h
  | cons m rest ihl =>
      intro g gf b h1 h2 hbmin hb
      cases happ : api.applyMove s m with
      | none =>
          simp only [minLoopV, foldMin_cons, happ]
          exact ihl g gf b h1 h2 hbmin hb
      | some s1 =>
          obtain ⟨t1, t2, t3⟩ := hIH b s1 hb
          simp only [minLoopV, foldMin_cons, happ]
          by_cases hbr : min b (ihv alpha0 b true s1) ≤ alpha0
          · simp only [if_pos hbr]
            have hra : ihv alpha0 b true s1 ≤ alpha0 := by
              rcases min_le_iff.mp hbr with h | h
              · exact absurd h (not_le.mpr hb)
              · exact h
            have hfr : ihF true s1 ≤ ihv alpha0 b true s1 := t1 hra
            have hVgf : foldMin api ihF s rest (min gf (ihF true s1)) ≤
                min gf (ihF true s1) :=
              foldMin_le_acc api ihF s rest _
            have hVle_gf : foldMin api ihF s rest (min gf (ihF true s1)) ≤ gf :=
              le_trans hVgf (min_le_left _ _)
            have hVle_f : foldMin api ihF s rest (min gf (ihF true s1)) ≤
                ihF true s1 :=
              le_trans hVgf (min_le_right _ _)
            refine ⟨fun hRb => ?_, ?_, fun _ => ?_⟩
            · exact absurd hRb
                (not_lt.mpr (le_trans (min_le_right g _) hra))
            · apply le_min
              · exact le_trans (min_le_min (le_refl _) hVle_gf) h2
              · exact le_trans (min_le_right _ _)
                  (le_trans hVle_f hfr)
            · apply le_min
              · rcases min_le_iff.mp h2 with h | h
                · have hbeta : alpha0 < beta0 :=
                    lt_of_lt_of_le hb (by rw [hbmin]; exact min_le_left _ _)
                  exact le_trans hVle_f (le_trans hfr (le_trans hra
                    (le_trans (le_of_lt hbeta) h)))
                · exact le_trans hVle_gf h
              · exact le_trans hVle_f hfr
          · simp only [if_neg hbr]
            have haR : alpha0 < min b (ihv alpha0 b true s1) := not_le.mp hbr
            have hrgta : alpha0 < ihv alpha0 b true s1 :=
              lt_of_lt_of_le haR (min_le_right _ _)
            have hrlef : ihv alpha0 b true s1 ≤ ihF true s1 := by
              rcases le_or_lt b (ihv alpha0 b true s1) with hrb | hrb
              · exact t3 hrb
              · exact le_of_eq (t2 hrgta hrb)
            have hrge : min beta0 (min gf (ihF true s1)) ≤ ihv alpha0 b true s1 := by
              rcases le_or_lt b (ihv alpha0 b true s1) with hrb | hrb
              · have haux : min beta0 gf ≤ b := by
                  rw [hbmin]
                  exact le_min (min_le_left _ _) h2
                exact le_trans (min_le_min (le_refl _) (min_le_left _ _))
                  (le_trans haux hrb)
              · rw [t2 hrgta hrb]
                exact le_trans (min_le_right _ _) (min_le_right gf _)
            have h1' : min g (ihv alpha0 b true s1) ≤ min gf (ihF true s1) :=
              min_le_min h1 hrlef
            have h2' : min beta0 (min gf (ihF true s1)) ≤
                min g (ihv alpha0 b true s1) := by
              apply le_min
              · exact le_trans (min_le_min (le_refl _) (min_le_left _ _)) h2
              · exact hrge
            have hb' : min b (ihv alpha0 b true s1) =
                min beta0 (min g (ihv alpha0 b true s1)) := by
              rw [hbmin]
              exact min_assoc beta0 g _
            exact ihl (min g (ihv alpha0 b true s1)) (min gf (ihF true s1))
              (min b (ihv alpha0 b true s1)) h1' h2' hb' haR

theorem mmKM {μ σ : Type} (api : RulesApi μ σ) :
    ∀ (d : Nat) (alpha beta : JVal) (mx : Bool) (s : σ), alpha < beta →
      (mmABv api d alpha beta mx s ≤ alpha →
        mmFull api d mx s ≤ mmABv api d alpha beta mx s) ∧
      (alpha < mmABv api d alpha beta mx s → mmABv api d alpha beta mx s < beta →
        mmABv api d alpha beta mx s = mmFull api d mx s) ∧
      (beta ≤ mmABv api d alpha beta mx s →
        mmABv api d alpha beta mx s ≤ mmFull api d mx s) := by
  intro d
  induction d with
  | zero =>
      intro alpha beta mx s _
      exact ⟨fun _ => le_refl _, fun _ _ => rfl, fun _ => le_refl _⟩
  | succ d ihd =>
      intro alpha beta mx s hab
      rw [mmABv_succ, mmABvStep, mmFull_succ, mmFullStep]
      by_cases hg : api.game_over s
      · simp only [if_pos hg]
        exact ⟨fun _ => le_refl _, fun _ _ => by trivial, fun _ => le_refl _⟩
      · simp only [if_neg hg]
        by_cases he : (api.moves s).isEmpty
        · simp only [if_pos he]
          exact ⟨fun _ => le_refl _, fun _ _ => by trivial, fun _ => le_refl _⟩
        · simp only [if_neg he]
          cases mx with
          | true =>
              obtain ⟨c1, c2, c3⟩ :=
                maxLoopKM api (mmABv api d) (mmFull api d) alpha beta s
                  (fun a s1 ha => ihd a beta false s1 ha)
                  (api.moves s) ⊥ ⊥ alpha (le_refl _) bot_le
                  (max_eq_left bot_le).symm hab
              refine ⟨fun hr => c1 (lt_of_le_of_lt hr hab), fun h1 h2 => ?_, c3⟩
              have hv1 := c1 h2
              have hv2 : maxLoopV api (mmABv api d) (api.moves s) ⊥ alpha beta s ≤
                  foldMax api (mmFull api d) s (api.moves s) ⊥ := by
                rcases le_max_iff.mp c2 with h | h
                · exact absurd h (not_le.mpr h1)
                · exact h
              exact le_antisymm hv2 hv1
          | false =>
              obtain ⟨c1, c2, c3⟩ :=
                minLoopKM api (mmABv api d) (mmFull api d) alpha beta s
                  (fun b s1 hb => ihd alpha b true s1 hb)
                  (api.moves s) ⊤ ⊤ beta (le_refl _) le_top
                  (min_eq_left le_top).symm hab
              refine ⟨c3, fun h1 h2 => ?_, fun h => c1 (lt_of_lt_of_le hab h)⟩
              have hv1 := c1 h1
              have hv2 : foldMin api (mmFull api d) s (api.moves s) ⊤ ≤
                  minLoopV api (mmABv api d) (api.moves s) ⊤ alpha beta s := by
                rcases min_le_iff.mp c2 with h | h
                · exact absurd h (not_le.mpr h2)
                · exact h
              exact le_antisymm hv1 hv2

theorem maxLoopNB_eq_fold {μ σ : Type} (api : RulesApi μ σ)
    (ih : JVal → JVal → Bool → σ → JVal) (ihF : Bool → σ → JVal)
    (hih : ∀ alpha beta mx t, ih alpha beta mx t = ihF mx t) :
    ∀ (l : List μ) (g alpha beta : JVal) (s : σ),
      maxLoopNB api ih l g alpha beta s = foldMax api ihF s l g := by
  intro l
  induction l with
  | nil => intro g alpha beta s; rfl
  | cons m rest ihl =>
      intro g alpha beta s
      cases happ : api.applyMove s m with
      | none =>
          simp only [maxLoopNB, foldMax_cons, happ]
          exact ihl g alpha beta s
      | some s1 =>
          simp only [maxLoopNB, foldMax_cons, happ, hih alpha beta false s1]
          exact ihl _ _ beta s

theorem minLoopNB_eq_fold {μ σ : Type} (api : RulesApi μ σ)
    (ih : JVal → JVal → Bool → σ → JVal) (ihF : Bool → σ → JVal)
    (hih : ∀ alpha beta mx t, ih alpha beta mx t = ihF mx t) :
    ∀ (l : List μ) (g alpha beta : JVal) (s : σ),
      minLoopNB api ih l g alpha beta s = foldMin api ihF s l g := by
  intro l
  induction l with
  | nil => intro g alpha beta s; rfl
  | cons m rest ihl =>
      intro g alpha beta s
      cases happ : api.applyMove s m with
      | none =>
          simp only [minLoopNB, foldMin_cons, happ]
          exact ihl g alpha beta s
      | some s1 =>
          simp only [minLoopNB, foldMin_cons, happ, hih alpha beta true s1]
          exact ihl _ alpha _ s

theorem mmNoBreak_eq_full {μ σ : Type} (api : RulesApi μ σ) :
    ∀ (d : Nat) (alpha beta : JVal) (mx : Bool) (s : σ),
      mmNoBreak api d alpha beta mx s = mmFull api d mx s := by
  intro d
  induction d with
  | zero => intro alpha beta mx s; rfl
  | succ d ihd =>
      intro alpha beta mx s
      rw [mmNoBreak_succ, mmNoBreakStep, mmFull_succ, mmFullStep]
      by_cases hg : api.game_over s
      · simp only [if_pos hg]
      · simp only [if_neg hg]
        by_cases he : (api.moves s).isEmpty
        · simp only [if_pos he]
        · simp only [if_neg he]
          cases mx with
          | true => exact maxLoopNB_eq_fold api _ _ ihd _ _ _ _ s
          | false => exact minLoopNB_eq_fold api _ _ ihd _ _ _ _ s

theorem rootAB_eq_NB {μ σ : Type} (api : RulesApi μ σ) (hH : Honest api) (d : Nat)
    (s : σ) :
    ∀ (l : List μ) (bm : Option μ) (bv alpha : JVal),
      alpha = bv → (bv = ⊥ ∨ IsFin bv) →
      rootLoopABv api (mmABv api d) l bm bv alpha ⊤ s =
        rootLoopNB api (mmNoBreak api d) l bm bv alpha ⊤ s := by
  intro l
  induction l with
  | nil => intro bm bv alpha _ _; rfl
  | cons m rest ihl =>
      intro bm bv alpha hab hfin
      subst hab
      have hfr : IsFin (mmABv api d ⊥ (jneg alpha) false
          ((api.applyMove s m).getD s)) := mmABv_fin api hH d _ _ false _
      have hff : IsFin (mmFull api d false ((api.applyMove s m).getD s)) :=
        mmFull_fin api hH d false _
      have hw : (⊥ : JVal) < jneg alpha := by
        rcases hfin with hb | ⟨q, hq⟩
        · rw [hb, jneg_bot]
          exact bot_lt_top_jval
        · rw [hq, jneg_jfin]
          exact bot_lt_jfin (-q)
      have hbotr : (⊥ : JVal) < mmABv api d ⊥ (jneg alpha) false
          ((api.applyMove s m).getD s) := by
        rcases hfr with ⟨q, hq⟩
        rw [hq]
        exact bot_lt_jfin q
      obtain ⟨t1, t2, t3⟩ :=
        mmKM api d ⊥ (jneg alpha) false ((api.applyMove s m).getD s) hw
      simp only [rootLoopABv, rootLoopNB, jneg_top, mmNoBreak_eq_full api d]
      by_cases himp :
          alpha < jneg (mmFull api d false ((api.applyMove s m).getD s))
      · have hflt : mmFull api d false ((api.applyMove s m).getD s) < jneg alpha :=
          lt_jneg_iff.mp himp
        have hrltb : mmABv api d ⊥ (jneg alpha) false ((api.applyMove s m).getD s) <
            jneg alpha := by
          by_contra hc
          push_neg at hc
          exact absurd (le_trans hc (t3 hc)) (not_le.mpr hflt)
        have hreq : mmABv api d ⊥ (jneg alpha) false ((api.applyMove s m).getD s) =
            mmFull api d false ((api.applyMove s m).getD s) := t2 hbotr hrltb
        rw [← hreq] at himp
        rw [← hreq]
        simp only [if_pos himp]
        have halpha1 : max alpha (jneg (mmABv api d ⊥ (jneg alpha) false
            ((api.applyMove s m).getD s))) =
            jneg (mmABv api d ⊥ (jneg alpha) false ((api.applyMove s m).getD s)) :=
          max_eq_right (le_of_lt himp)
        have hnt : IsFin (jneg (mmABv api d ⊥ (jneg alpha) false
            ((api.applyMove s m).getD s))) := hfr.jneg
        have hnb : ¬ ((⊤ : JVal) ≤ max alpha (jneg (mmABv api d ⊥ (jneg alpha) false
            ((api.applyMove s m).getD s)))) := by
          rw [halpha1]
          intro hc
          exact hnt.ne_top (top_le_iff.mp hc)
        simp only [if_neg hnb]
        rw [halpha1]
        exact ihl (some m) _ _ rfl (Or.inr hnt)
      · have hvple : jneg (mmABv api d ⊥ (jneg alpha) false
            ((api.applyMove s m).getD s)) ≤ alpha := by
          rcases le_or_lt (jneg alpha)
              (mmABv api d ⊥ (jneg alpha) false ((api.applyMove s m).getD s)) with
            hge | hlt
          · exact jneg_le_iff.mpr hge
          · rw [t2 hbotr hlt]
            exact not_lt.mp himp
        have hnlt : ¬ (alpha < jneg (mmABv api d ⊥ (jneg alpha) false
            ((api.applyMove s m).getD s))) := not_lt.mpr hvple
        simp only [if_neg hnlt, if_neg himp]
        have halpha1 : max alpha (jneg (mmABv api d ⊥ (jneg alpha) false
            ((api.applyMove s m).getD s))) = alpha := max_eq_left hvple
        have halpha2 : max alpha (jneg (mmFull api d false
            ((api.applyMove s m).getD s))) = alpha := max_eq_left (not_lt.mp himp)
        have hnb : ¬ ((⊤ : JVal) ≤ max alpha (jneg (mmABv api d ⊥ (jneg alpha) false
            ((api.applyMove s m).getD s)))) := by
          rw [halpha1]
          intro hc
          rcases hfin with hb | hfq
          · rw [hb] at hc
            exact absurd (top_le_iff.mp hc) (ne_of_lt bot_lt_top_jval)
          · exact hfq.ne_top (top_le_iff.mp hc)
        simp only [if_neg hnb]
        rw [halpha1, halpha2]
        exact ihl bm alpha alpha rfl hfin

theorem rootLoopNB_attains {μ σ : Type} (api : RulesApi μ σ)
    (mm : JVal → JVal → Bool → σ → JVal) (F : σ → JVal)
    (hmm : ∀ alpha beta s1, mm alpha beta false s1 = F s1) (s : σ) :
    ∀ (l : List μ) (bm : Option μ) (bv alpha beta : JVal),
      (∀ m2, bm = some m2 → jneg (F ((api.applyMove s m2).getD s)) = bv) →
      ∀ m2, (rootLoopNB api mm l bm bv alpha beta s).1 = some m2 →
        jneg (F ((api.applyMove s m2).getD s)) =
          (rootLoopNB api mm l bm bv alpha beta s).2 := by
  intro l
  induction l with
  | nil =>
      intro bm bv alpha beta hinv m2 hres
      exact hinv m2 hres
  | cons m rest ihl =>
      intro bm bv alpha beta hinv m2 hres
      rw [rootLoopNB] at hres ⊢
      simp only [hmm] at hres ⊢
      by_cases hlt : bv < jneg (F ((api.applyMove s m).getD s))
      · simp only [if_pos hlt] at hres ⊢
        refine ihl _ _ _ _ ?_ m2 hres
        intro m3 hm3
        injection hm3 with hm3
        subst hm3
        rfl
      · simp only [if_neg hlt] at hres ⊢
        exact ihl _ _ _ _ hinv m2 hres

theorem rootLoopABv_mem {μ σ : Type} (api : RulesApi μ σ)
    (mm : JVal → JVal → Bool → σ → JVal) (s : σ) :
    ∀ (l : List μ) (bm : Option μ) (bv alpha beta : JVal),
      (rootLoopABv api mm l bm bv alpha beta s).1 = bm ∨
        ∃ m ∈ l, (rootLoopABv api mm l bm bv alpha beta s).1 = some m := by
  intro l
  induction l with
  | nil => intro bm bv alpha beta; exact Or.inl rfl
  | cons m rest ihl =>
      intro bm bv alpha beta
      rw [rootLoopABv]
      by_cases hlt : bv < jneg (mm (jneg beta) (jneg alpha) false
          ((api.applyMove s m).getD s))
      · simp only [if_pos hlt]
        by_cases hbr : beta ≤ max alpha (jneg (mm (jneg beta) (jneg alpha) false
            ((api.applyMove s m).getD s)))
        · simp only [if_pos hbr]
          exact Or.inr ⟨m, List.mem_cons_self m rest, rfl⟩
        · simp only [if_neg hbr]
          rcases ihl (some m) _ _ beta with h | ⟨m3, hm3, hres⟩
          · exact Or.inr ⟨m, List.mem_cons_self m rest, h⟩
          · exact Or.inr ⟨m3, List.mem_cons_of_mem m hm3, hres⟩
      · simp only [if_neg hlt]
        by_cases hbr : beta ≤ max alpha (jneg (mm (jneg beta) (jneg alpha) false
            ((api.applyMove s m).getD s)))
        · simp only [if_pos hbr]
          exact Or.inl (by trivial)
        · simp only [if_neg hbr]
          rcases ihl bm _ _ beta with h | ⟨m3, hm3, hres⟩
          · exact Or.inl h
          · exact Or.inr ⟨m3, List.mem_cons_of_mem m hm3, hres⟩

theorem rootLoopABv_isSome {μ σ : Type} (api : RulesApi μ σ)
    (mm : JVal → JVal → Bool → σ → JVal) (s : σ) :
    ∀ (l : List μ) (x : μ) (bv alpha beta : JVal),
      ∃ y, (rootLoopABv api mm l (some x) bv alpha beta s).1 = some y := by
  intro l
  induction l with
  | nil => intro x bv alpha beta; exact ⟨x, rfl⟩
  | cons m rest ihl =>
      intro x bv alpha beta
      rw [rootLoopABv]
      by_cases hlt : bv < jneg (mm (jneg beta) (jneg alpha) false
          ((api.applyMove s m).getD s))
      · simp only [if_pos hlt]
        by_cases hbr : beta ≤ max alpha (jneg (mm (jneg beta) (jneg alpha) false
            ((api.applyMove s m).getD s)))
        · simp only [if_pos hbr]
          exact ⟨m, rfl⟩
        · simp only [if_neg hbr]
          exact ihl m _ _ beta
      · simp only [if_neg hlt]
        by_cases hbr : beta ≤ max alpha (jneg (mm (jneg beta) (jneg alpha) false
            ((api.applyMove s m).getD s)))
        · simp only [if_pos hbr]
          exact ⟨x, rfl⟩
        · simp only [if_neg hbr]
          exact ihl x _ _ beta

theorem rootLoop_eq_noCut {μ σ : Type} (api : RulesApi μ σ) (hH : Honest api)
    (hU : UndoLaw api) (d : Nat) :
    ∀ (l : List μ) (bm : Option μ) (bv alpha : JVal) (s : σ),
      (∀ m ∈ l, m ∈ api.moves s) → (alpha = ⊥ ∨ IsFin alpha) →
      rootLoop api (minimax api d) l bm bv alpha ⊤ s =
        rootLoopNoCut api (minimax api d) l bm bv alpha ⊤ s := by
  intro l
  induction l with
  | nil => intro bm bv alpha s _ _; rfl
  | cons m rest ihl =>
      intro bm bv alpha s hmem hfin
      obtain ⟨s1, happ⟩ := Option.isSome_iff_exists.mp
        (hH s m (hmem m (List.mem_cons_self m rest)))
      have hu : api.undo s1 = s := hU s m s1 happ
      rw [rootLoop, rootLoopNoCut]
      simp only [happ, Option.getD_some,
        minimax_pure api hU d (jneg ⊤) (jneg alpha) false s1, hu]
      have hvfin : IsFin (jneg (mmABv api d (jneg ⊤) (jneg alpha) false s1)) :=
        (mmABv_fin api hH d _ _ false s1).jneg
      have halfin : IsFin (max alpha (jneg (mmABv api d (jneg ⊤) (jneg alpha)
          false s1))) := IsFin.max_with_bot hfin hvfin
      have hnb : ¬ ((⊤ : JVal) ≤ max alpha (jneg (mmABv api d (jneg ⊤) (jneg alpha)
          false s1))) := by
        intro hc
        exact halfin.ne_top (top_le_iff.mp hc)
      simp only [if_neg hnb]
      exact ihl _ _ _ s (fun x hx => hmem x (List.mem_cons_of_mem m hx))
        (Or.inr halfin)

/-- The toy rules engine accepts every enumerated move. -/
theorem toyApi_honest : Honest toyApi := by
  intro s m _
  rfl

/-- The toy rules engine restores the prior state on undo. -/
theorem toyApi_undo : UndoLaw toyApi := by
  intro s m s' h
  injection h with h
  rw [← h]
  rfl

/-- Helper: the checkmate branch evaluated at the fool-mate position. -/
theorem evalFoolsMate_eq : evaluatePosition foolsMateView = -10000 := rfl

/-- Helper: the starting position evaluates to -2: every term cancels by
symmetry except the mobility term, which subtracts 20 x 0.1 for the side
to move (white). -/
theorem evalStart_eq : evaluatePosition startView = -2 := by
  have hm : materialScore startBoard = 0 := by decide
  have hksb : evaluateKingSafety startBoard Color.b = 30 := by decide
  have hksw : evaluateKingSafety startBoard Color.w = 30 := by decide
  have hpsb : evaluatePawnStructure startBoard Color.b = 0 := by decide
  have hpsw : evaluatePawnStructure startBoard Color.w = 0 := by decide
  simp only [evaluatePosition, startView]
  norm_num [hm, hksb, hksw, hpsb, hpsw]
  decide

/-- C1 counterexample: the fool-mate position is a checkmate with the
human side (white) to move, yet evaluatePosition returns -10000 rather
than the +10000 the claim asserts for a white-to-move checkmate. -/
theorem c1_counterexample :
    foolsMateView.in_checkmate = true ∧ foolsMateView.turn = Color.w ∧
      evaluatePosition foolsMateView ≠ 10000 := by
  refine ⟨rfl, rfl, ?_⟩
  rw [evalFoolsMate_eq]
  norm_num

/-- C1 (amended): for every checkmate snapshot, evaluatePosition returns
+10000 when the side to move is black (the engine side) and -10000 when
the side to move is white (the human side) — the opposite signs of the
claim. -/
theorem c1_theorem (v : PosView) (h : v.in_checkmate = true) :
    evaluatePosition v = (if v.turn = Color.b then (10000 : ℚ) else -10000) := by
  unfold evaluatePosition
  rw [h]
  rfl

/-- C1 witness: the amended sign rule evaluated at the fool-mate
position. -/
theorem c1_witness :
    foolsMateView.in_checkmate = true ∧
      evaluatePosition foolsMateView =
        (if foolsMateView.turn = Color.b then (10000 : ℚ) else -10000) :=
  ⟨rfl, c1_theorem foolsMateView rfl⟩

/-- C5 counterexample: the standard starting position does not evaluate
to 0. -/
theorem c5_counterexample : evaluatePosition startView ≠ 0 := by
  rw [evalStart_eq]
  norm_num

/-- C5 (amended): the standard starting position evaluates to exactly
-2: material, piece-square, king-safety and pawn-structure terms cancel
by symmetry, and the mobility term subtracts 20 x 0.1 because white (the
side to move) has the 20 opening moves. -/
theorem c5_theorem : evaluatePosition startView = -2 := evalStart_eq

/-- C8: with a rules engine that accepts its own enumerated moves and
restores state exactly on undo, every minimax call and every
findBestMove call (breaks included) returns the game in its initial
state: each applied move has been undone. -/
theorem c8_theorem {μ σ : Type} (api : RulesApi μ σ)
    (hH : Honest api) (hU : UndoLaw api) :
    (∀ (d : Nat) (alpha beta : JVal) (mx : Bool) (s : σ),
      (minimax api d alpha beta mx s).2 = s) ∧
    (∀ (rA rB : Nat → ℚ) (d : Nat) (s : σ), (findBestMove api rA rB d s).2 = s) := by
  constructor
  · intro d alpha beta mx s
    rw [minimax_pure api hU d alpha beta mx s]
  · intro rA rB d s
    rw [findBestMove_pure api hH hU rA rB d s]

/-- C8 witness: the toy engine search at depth 2 ends with the initial
(empty-history) state. -/
theorem c8_witness :
    (findBestMove toyApi (fun _ => 0) (fun _ => 0) 2 []).2 = ([] : List Nat) :=
  (c8_theorem toyApi toyApi_honest toyApi_undo).2 (fun _ => 0) (fun _ => 0) 2 []

/-- C3: for every position, findBestMove at depth at least 1 returns
null exactly when there is no legal move, and otherwise returns one of
the legal moves of the position (rules-engine laws as hypotheses). -/
theorem c3_theorem {μ σ : Type} (api : RulesApi μ σ) (hH : Honest api)
    (hU : UndoLaw api) (rA rB : Nat → ℚ) (d : Nat) (hd : 1 ≤ d) (s : σ) :
    (api.moves s = [] → (findBestMove api rA rB d s).1 = none) ∧
    (api.moves s ≠ [] →
      ∃ m, (findBestMove api rA rB d s).1 = some m ∧ m ∈ api.moves s) := by
  constructor
  · intro hmt
    rw [findBestMove, hmt]
    rfl
  · intro hne
    rw [findBestMove_pure api hH hU]
    rw [findBestMoveVal]
    have hoe : ¬ ((api.moves s).isEmpty = true) := by
      intro hc
      exact hne (List.isEmpty_iff.mp hc)
    simp only [if_neg hoe]
    obtain ⟨m0, rest, hord⟩ :
        ∃ m0 rest, orderMoves api rA rB (api.moves s) = m0 :: rest := by
      cases hord : orderMoves api rA rB (api.moves s) with
      | nil => exact absurd hord (orderMoves_ne_nil api rA rB _ hne)
      | cons a l => exact ⟨a, l, rfl⟩
    have hmemord : ∀ x, x ∈ orderMoves api rA rB (api.moves s) → x ∈ api.moves s :=
      fun x hx => orderMoves_mem api rA rB _ x hx
    rw [hord]
    rw [rootLoopABv]
    have hvfin : IsFin (jneg (mmABv api (d - 1) (jneg ⊤) (jneg ⊥) false
        ((api.applyMove s m0).getD s))) := (mmABv_fin api hH _ _ _ false _).jneg
    have hlt : (⊥ : JVal) < jneg (mmABv api (d - 1) (jneg ⊤) (jneg ⊥) false
        ((api.applyMove s m0).getD s)) := by
      rcases hvfin with ⟨q, hq⟩
      rw [hq]
      exact bot_lt_jfin q
    simp only [if_pos hlt]
    by_cases hbr : (⊤ : JVal) ≤ max ⊥ (jneg (mmABv api (d - 1) (jneg ⊤) (jneg ⊥)
        false ((api.applyMove s m0).getD s)))
    · simp only [if_pos hbr]
      refine ⟨m0, by trivial, ?_⟩
      apply hmemord
      rw [hord]
      exact List.mem_cons_self m0 rest
    · simp only [if_neg hbr]
      obtain ⟨y, hy⟩ := rootLoopABv_isSome api (mmABv api (d - 1)) s rest m0 _ _ ⊤
      refine ⟨y, hy, ?_⟩
      rcases rootLoopABv_mem api (mmABv api (d - 1)) s rest (some m0) _ _ ⊤ with
        h | ⟨m3, hm3, hres⟩
      · rw [h] at hy
        injection hy with hy
        subst hy
        apply hmemord
        rw [hord]
        exact List.mem_cons_self m0 rest
      · rw [hres] at hy
        injection hy with hy
        subst hy
        apply hmemord
        rw [hord]
        exact List.mem_cons_of_mem m0 hm3

/-- C3 witness: on the toy engine with two legal moves the depth-2
search returns one of them. -/
theorem c3_witness :
    ∃ m, (findBestMove toyApi (fun _ => 0) (fun _ => 0) 2 []).1 = some m ∧
      m ∈ toyApi.moves [] :=
  (c3_theorem toyApi toyApi_honest toyApi_undo (fun _ => 0) (fun _ => 0) 2
    (by decide) []).2 (by decide)

/-- C4: the root search with the alpha-beta breaks agrees with the same
search with every break removed: the threaded findBestMove returns the
move of the pure pruning search, that search returns the same move and
value as the no-break (exhaustive full-width) search, and the chosen
move of the full-width search attains the full-width value. -/
theorem c4_theorem {μ σ : Type} (api : RulesApi μ σ) (hH : Honest api)
    (hU : UndoLaw api) (rA rB : Nat → ℚ) (d : Nat) (s : σ) :
    (findBestMove api rA rB d s).1 = (findBestMoveVal api rA rB d s).1 ∧
    findBestMoveVal api rA rB d s = findBestMoveValNB api rA rB d s ∧
    (∀ m, (findBestMoveValNB api rA rB d s).1 = some m →
      rootMoveValFull api d s m = (findBestMoveValNB api rA rB d s).2) := by
  refine ⟨?_, ?_, ?_⟩
  · rw [findBestMove_pure api hH hU]
  · rw [findBestMoveVal, findBestMoveValNB]
    by_cases he : (api.moves s).isEmpty
    · simp only [if_pos he]
    · simp only [if_neg he]
      exact rootAB_eq_NB api hH (d - 1) s _ none ⊥ ⊥ rfl (Or.inl rfl)
  · intro m hm
    rw [findBestMoveValNB] at hm ⊢
    by_cases he : (api.moves s).isEmpty
    · simp only [if_pos he] at hm
      exact absurd hm (by simp)
    · simp only [if_neg he] at hm ⊢
      have hat := rootLoopNB_attains api (mmNoBreak api (d - 1))
        (fun s1 => mmFull api (d - 1) false s1)
        (fun alpha beta s1 => mmNoBreak_eq_full api (d - 1) alpha beta false s1) s
        (orderMoves api rA rB (api.moves s)) none ⊥ ⊥ ⊤
        (fun m2 h => by cases h) m hm
      rw [rootMoveValFull]
      exact hat

/-- C4 witness: the pruning and no-break searches agree on the toy
engine at depth 2. -/
theorem c4_witness :
    findBestMoveVal toyApi (fun _ => 0) (fun _ => 0) 2 [] =
      findBestMoveValNB toyApi (fun _ => 0) (fun _ => 0) 2 [] :=
  (c4_theorem toyApi toyApi_honest toyApi_undo (fun _ => 0) (fun _ => 0) 2 []).2.1

/-- C10: beta stays +Infinity at the root and every search value is
finite for an engine that accepts its enumerated moves, so the root-level
cutoff never fires: findBestMove equals the same search with only the
root break removed, examining every ordered legal move. -/
theorem c10_theorem {μ σ : Type} (api : RulesApi μ σ) (hH : Honest api)
    (hU : UndoLaw api) (rA rB : Nat → ℚ) (d : Nat) (s : σ) :
    findBestMove api rA rB d s = findBestMoveNoRootCut api rA rB d s := by
  rw [findBestMove, findBestMoveNoRootCut]
  by_cases he : (api.moves s).isEmpty
  · simp only [if_pos he]
  · simp only [if_neg he]
    exact rootLoop_eq_noCut api hH hU (d - 1) _ none ⊥ ⊥ s
      (fun m hm => orderMoves_mem api rA rB _ m hm) (Or.inl rfl)

/-- C10 witness: the root break changes nothing on the toy engine. -/
theorem c10_witness :
    findBestMove toyApi (fun _ => 0) (fun _ => 0) 2 [] =
      findBestMoveNoRootCut toyApi (fun _ => 0) (fun _ => 0) 2 [] :=
  c10_theorem toyApi toyApi_honest toyApi_undo (fun _ => 0) (fun _ => 0) 2 []

theorem maxLoopE_error {μ σ : Type} (api : RulesApi μ σ)
    (viewE : σ → Except Unit PosView)
    (ih : JVal → JVal → Bool → σ → Except σ (JVal × σ))
    (hih : ∀ alpha beta mx t e, ih alpha beta mx t = .error e →
      viewE e = .error ()) :
    ∀ (l : List μ) (mE alpha beta : JVal) (s e : σ),
      maxLoopE api ih l mE alpha beta s = .error e → viewE e = .error () := by
  intro l
  induction l with
  | nil =>
      intro mE alpha beta s e h
      exact Except.noConfusion h
  | cons m rest ihl =>
      intro mE alpha beta s e h
      rw [maxLoopE] at h
      cases happ : api.applyMove s m with
      | none =>
          simp only [happ] at h
          exact ihl mE alpha beta s e h
      | some s1 =>
          simp only [happ] at h
          cases hr : ih alpha beta false s1 with
          | error e2 =>
              simp only [hr] at h
              injection h with h
              subst h
              exact hih alpha beta false s1 e2 hr
          | ok es =>
              simp only [hr] at h
              by_cases hb : beta ≤ max alpha es.1
              · simp only [if_pos hb] at h
                exact Except.noConfusion h
              · simp only [if_neg hb] at h
                exact ihl _ _ beta _ e h

theorem minLoopE_error {μ σ : Type} (api : RulesApi μ σ)
    (viewE : σ → Except Unit PosView)
    (ih : JVal → JVal → Bool → σ → Except σ (JVal × σ))
    (hih : ∀ alpha beta mx t e, ih alpha beta mx t = .error e →
      viewE e = .error ()) :
    ∀ (l : List μ) (mE alpha beta : JVal) (s e : σ),
      minLoopE api ih l mE alpha beta s = .error e → viewE e = .error () := by
  intro l
  induction l with
  | nil =>
      intro mE alpha beta s e h
      exact Except.noConfusion h
  | cons m rest ihl =>
      intro mE alpha beta s e h
      rw [minLoopE] at h
      cases happ : api.applyMove s m with
      | none =>
          simp only [happ] at h
          exact ihl mE alpha beta s e h
      | some s1 =>
          simp only [happ] at h
          cases hr : ih alpha beta true s1 with
          | error e2 =>
              simp only [hr] at h
              injection h with h
              subst h
              exact hih alpha beta true s1 e2 hr
          | ok es =>
              simp only [hr] at h
              by_cases hb : min beta es.1 ≤ alpha
              · simp only [if_pos hb] at h
                exact Except.noConfusion h
              · simp only [if_neg hb] at h
                exact ihl _ alpha _ _ e h

theorem leafValE_error {σ : Type} (viewE : σ → Except Unit PosView) (s e : σ)
    (h : leafValE viewE s = .error e) : viewE e = .error () := by
  rw [leafValE] at h
  cases hv : viewE s with
  | ok v =>
      simp only [hv] at h
      exact Except.noConfusion h
  | error u =>
      simp only [hv] at h
      injection h with h
      subst h
      cases u
      exact hv

theorem minimaxE_error {μ σ : Type} (api : RulesApi μ σ)
    (viewE : σ → Except Unit PosView) :
    ∀ (d : Nat) (alpha beta : JVal) (mx : Bool) (s e : σ),
      minimaxE api viewE d alpha beta mx s = .error e → viewE e = .error () := by
  intro d
  induction d with
  | zero =>
      intro alpha beta mx s e h
      exact leafValE_error viewE s e h
  | succ d ihd =>
      intro alpha beta mx s e h
      rw [minimaxE_succ, minimaxEStep] at h
      by_cases hg : api.game_over s
      · rw [if_pos hg] at h
        exact leafValE_error viewE s e h
      · rw [if_neg hg] at h
        by_cases he : (api.moves s).isEmpty
        · simp only [if_pos he] at h
          exact leafValE_error viewE s e h
        · simp only [if_neg he] at h
          cases mx with
          | true =>
              exact maxLoopE_error api viewE _
                (fun a b mx2 t e2 h2 => ihd a b mx2 t e2 h2) _ _ _ _ s e h
          | false =>
              exact minLoopE_error api viewE _
                (fun a b mx2 t e2 h2 => ihd a b mx2 t e2 h2) _ _ _ _ s e h

theorem rootLoopE_error {μ σ : Type} (api : RulesApi μ σ)
    (viewE : σ → Except Unit PosView)
    (mm : JVal → JVal → Bool → σ → Except σ (JVal × σ))
    (hmm : ∀ alpha beta mx t e, mm alpha beta mx t = .error e →
      viewE e = .error ()) :
    ∀ (l : List μ) (bm : Option μ) (bv alpha beta : JVal) (s e : σ),
      rootLoopE api mm l bm bv alpha beta s = .error e → viewE e = .error () := by
  intro l
  induction l with
  | nil =>
      intro bm bv alpha beta s e h
      exact Except.noConfusion h
  | cons m rest ihl =>
      intro bm bv alpha beta s e h
      rw [rootLoopE] at h
      cases hr : mm (jneg beta) (jneg alpha) false ((api.applyMove s m).getD s) with
      | error e2 =>
          simp only [hr] at h
          injection h with h
          subst h
          exact hmm _ _ false _ e2 hr
      | ok es =>
          simp only [hr] at h
          by_cases hb : beta ≤ max alpha (jneg es.1)
          · simp only [if_pos hb] at h
            exact Except.noConfusion h
          · simp only [if_neg hb] at h
            exact ihl _ _ _ beta _ e h

/-- C2 counterexample: on a one-move engine whose snapshot query throws
at the child state 1, findBestMoveE surfaces the exception with the
position still at state 1 — the applied root move was never undone, so
the position is not restored to its pre-call state 0. -/
theorem c2_counterexample :
    findBestMoveE failApi failViewE (fun _ => 0) (fun _ => 0) 1 0 =
      .error 1 ∧ (1 : Nat) ≠ 0 := by
  constructor
  · rfl
  · decide

/-- C2 (amended): the source has no try/finally around the
apply/recurse/undo sequence, so when a rules-engine failure occurs
during the recursion no undo runs after the failure point: minimaxE and
findBestMoveE surface the exception carrying exactly the state at which
the snapshot query failed (in general different from the pre-call
state), not a restored position. -/
theorem c2_theorem {μ σ : Type} (api : RulesApi μ σ)
    (viewE : σ → Except Unit PosView) :
    (∀ (d : Nat) (alpha beta : JVal) (mx : Bool) (s e : σ),
      minimaxE api viewE d alpha beta mx s = .error e → viewE e = .error ()) ∧
    (∀ (rA rB : Nat → ℚ) (d : Nat) (s e : σ),
      findBestMoveE api viewE rA rB d s = .error e → viewE e = .error ()) := by
  constructor
  · exact minimaxE_error api viewE
  · intro rA rB d s e h
    rw [findBestMoveE] at h
    by_cases he : (api.moves s).isEmpty
    · rw [if_pos he] at h
      exact Except.noConfusion h
    · rw [if_neg he] at h
      exact rootLoopE_error api viewE _
        (fun a b mx t e2 h2 => minimaxE_error api viewE (d - 1) a b mx t e2 h2)
        _ none ⊥ ⊥ ⊤ s e h

/-- C2 witness: on the failing toy engine the surfaced state is the
failure state. -/
theorem c2_witness : failViewE 1 = .error () :=
  (c2_theorem failApi failViewE).2 (fun _ => 0) (fun _ => 0) 1 0 1 rfl

theorem maxLoopN_fst {μ σ : Type} (api : RulesApi μ σ)
    (ihN : JVal → JVal → Bool → σ → Nat → (JVal × σ) × Nat)
    (ih : JVal → JVal → Bool → σ → JVal × σ)
    (hih : ∀ alpha beta mx t c, (ihN alpha beta mx t c).1 = ih alpha beta mx t) :
    ∀ (l : List μ) (mE alpha beta : JVal) (s : σ) (c : Nat),
      (maxLoopN api ihN l mE alpha beta s c).1 = maxLoop api ih l mE alpha beta s := by
  intro l
  induction l with
  | nil => intro mE alpha beta s c; rfl
  | cons m rest ihl =>
      intro mE alpha beta s c
      rw [maxLoopN, maxLoop]
      cases happ : api.applyMove s m with
      | none =>
          simp only [happ]
          exact ihl mE alpha beta s c
      | some s1 =>
          simp only [happ, hih alpha beta false s1 c]
          by_cases hb : beta ≤ max alpha (ih alpha beta false s1).1
          · simp only [if_pos hb]
          · simp only [if_neg hb]
            exact ihl _ _ beta _ _

theorem minLoopN_fst {μ σ : Type} (api : RulesApi μ σ)
    (ihN : JVal → JVal → Bool → σ → Nat → (JVal × σ) × Nat)
    (ih : JVal → JVal → Bool → σ → JVal × σ)
    (hih : ∀ alpha beta mx t c, (ihN alpha beta mx t c).1 = ih alpha beta mx t) :
    ∀ (l : List μ) (mE alpha beta : JVal) (s : σ) (c : Nat),
      (minLoopN api ihN l mE alpha beta s c).1 = minLoop api ih l mE alpha beta s := by
  intro l
  induction l with
  | nil => intro mE alpha beta s c; rfl
  | cons m rest ihl =>
      intro mE alpha beta s c
      rw [minLoopN, minLoop]
      cases happ : api.applyMove s m with
      | none =>
          simp only [happ]
          exact ihl mE alpha beta s c
      | some s1 =>
          simp only [happ, hih alpha beta true s1 c]
          by_cases hb : min beta (ih alpha beta true s1).1 ≤ alpha
          · simp only [if_pos hb]
          · simp only [if_neg hb]
            exact ihl _ alpha _ _ _

theorem minimaxN_fst {μ σ : Type} (api : RulesApi μ σ) :
    ∀ (d : Nat) (alpha beta : JVal) (mx : Bool) (s : σ) (c : Nat),
      (minimaxN api d alpha beta mx s c).1 = minimax api d alpha beta mx s := by
  intro d
  induction d with
  | zero => intro alpha beta mx s c; rfl
  | succ d ihd =>
      intro alpha beta mx s c
      rw [minimaxN_succ, minimaxNStep, minimax_succ, minimaxStep]
      by_cases hg : api.game_over s
      · simp only [if_pos hg]
      · simp only [if_neg hg]
        by_cases he : (api.moves s).isEmpty
        · simp only [if_pos he]
        · simp only [if_neg he]
          cases mx with
          | true => exact maxLoopN_fst api _ _ (fun a b mx2 t c2 => ihd a b mx2 t c2) _ _ _ _ s _
          | false => exact minLoopN_fst api _ _ (fun a b mx2 t c2 => ihd a b mx2 t c2) _ _ _ _ s _

theorem rootLoopN_fst {μ σ : Type} (api : RulesApi μ σ)
    (mmN : JVal → JVal → Bool → σ → Nat → (JVal × σ) × Nat)
    (mm : JVal → JVal → Bool → σ → JVal × σ)
    (hmm : ∀ alpha beta mx t c, (mmN alpha beta mx t c).1 = mm alpha beta mx t) :
    ∀ (l : List μ) (bm : Option μ) (bv alpha beta : JVal) (s : σ) (c : Nat),
      (rootLoopN api mmN l bm bv alpha beta s c).1 =
        rootLoop api mm l bm bv alpha beta s := by
  intro l
  induction l with
  | nil => intro bm bv alpha beta s c; rfl
  | cons m rest ihl =>
      intro bm bv alpha beta s c
      rw [rootLoopN, rootLoop]
      simp only [hmm (jneg beta) (jneg alpha) false _ c]
      by_cases hb : beta ≤ max alpha (jneg (mm (jneg beta) (jneg alpha) false
          ((api.applyMove s m).getD s)).1)
      · simp only [if_pos hb]
      · simp only [if_neg hb]
        exact ihl _ _ _ beta _ _

theorem nodeBound_pos (B : Nat) : ∀ d, 1 ≤ nodeBound B d := by
  intro d
  cases d with
  | zero => exact le_refl 1
  | succ d => exact Nat.le_add_right 1 _

theorem maxLoopN_count {μ σ : Type} (api : RulesApi μ σ)
    (ihN : JVal → JVal → Bool → σ → Nat → (JVal × σ) × Nat) (nb : Nat)
    (hb : ∀ alpha beta mx t c, (ihN alpha beta mx t c).2 ≤ c + nb) :
    ∀ (l : List μ) (mE alpha beta : JVal) (s : σ) (c : Nat),
      (maxLoopN api ihN l mE alpha beta s c).2 ≤ c + l.length * nb := by
  intro l
  induction l with
  | nil =>
      intro mE alpha beta s c
      simp
      exact Nat.le_refl c
  | cons m rest ihl =>
      intro mE alpha beta s c
      rw [maxLoopN]
      have hlen : (m :: rest).length * nb = rest.length * nb + nb := by
        rw [List.length_cons, Nat.succ_mul]
      cases happ : api.applyMove s m with
      | none =>
          simp only [happ]
          calc (maxLoopN api ihN rest mE alpha beta s c).2 ≤
              c + rest.length * nb := ihl mE alpha beta s c
            _ ≤ c + (m :: rest).length * nb := by
                rw [hlen]
                omega
      | some s1 =>
          simp only [happ]
          have hr2 : (ihN alpha beta false s1 c).2 ≤ c + nb := hb alpha beta false s1 c
          by_cases hcut : beta ≤ max alpha (ihN alpha beta false s1 c).1.1
          · simp only [if_pos hcut]
            calc (ihN alpha beta false s1 c).2 ≤ c + nb := hr2
              _ ≤ c + (m :: rest).length * nb := by
                  rw [hlen]
                  omega
          · simp only [if_neg hcut]
            calc (maxLoopN api ihN rest _ _ beta _ (ihN alpha beta false s1 c).2).2 ≤
                (ihN alpha beta false s1 c).2 + rest.length * nb := ihl _ _ beta _ _
              _ ≤ c + (m :: rest).length * nb := by
                  rw [hlen]
                  omega

theorem minLoopN_count {μ σ : Type} (api : RulesApi μ σ)
    (ihN : JVal → JVal → Bool → σ → Nat → (JVal × σ) × Nat) (nb : Nat)
    (hb : ∀ alpha beta mx t c, (ihN alpha beta mx t c).2 ≤ c + nb) :
    ∀ (l : List μ) (mE alpha beta : JVal) (s : σ) (c : Nat),
      (minLoopN api ihN l mE alpha beta s c).2 ≤ c + l.length * nb := by
  intro l
  induction l with
  | nil =>
      intro mE alpha beta s c
      simp
      exact Nat.le_refl c
  | cons m rest ihl =>
      intro mE alpha beta s c
      rw [minLoopN]
      have hlen : (m :: rest).length * nb = rest.length * nb + nb := by
        rw [List.length_cons, Nat.succ_mul]
      cases happ : api.applyMove s m with
      | none =>
          simp only [happ]
          calc (minLoopN api ihN rest mE alpha beta s c).2 ≤
              c + rest.length * nb := ihl mE alpha beta s c
            _ ≤ c + (m :: rest).length * nb := by
                rw [hlen]
                omega
      | some s1 =>
          simp only [happ]
          have hr2 : (ihN alpha beta true s1 c).2 ≤ c + nb := hb alpha beta true s1 c
          by_cases hcut : min beta (ihN alpha beta true s1 c).1.1 ≤ alpha
          · simp only [if_pos hcut]
            calc (ihN alpha beta true s1 c).2 ≤ c + nb := hr2
              _ ≤ c + (m :: rest).length * nb := by
                  rw [hlen]
                  omega
          · simp only [if_neg hcut]
            calc (minLoopN api ihN rest _ alpha _ _ (ihN alpha beta true s1 c).2).2 ≤
                (ihN alpha beta true s1 c).2 + rest.length * nb := ihl _ alpha _ _ _
              _ ≤ c + (m :: rest).length * nb := by
                  rw [hlen]
                  omega

theorem minimaxN_count {μ σ : Type} (api : RulesApi μ σ) (B : Nat)
    (hB : ∀ t, (api.moves t).length ≤ B) :
    ∀ (d : Nat) (alpha beta : JVal) (mx : Bool) (s : σ) (c : Nat),
      (minimaxN api d alpha beta mx s c).2 ≤ c + nodeBound B d := by
  intro d
  induction d with
  | zero => intro alpha beta mx s c; exact le_refl _
  | succ d ihd =>
      intro alpha beta mx s c
      rw [minimaxN_succ, minimaxNStep, nodeBound]
      by_cases hg : api.game_over s
      · simp only [if_pos hg]
        omega
      · simp only [if_neg hg]
        by_cases he : (api.moves s).isEmpty
        · simp only [if_pos he]
          omega
        · simp only [if_neg he]
          have hlb : (api.moves s).length * nodeBound B d ≤ B * nodeBound B d :=
            Nat.mul_le_mul_right _ (hB s)
          cases mx with
          | true =>
              calc (maxLoopN api (minimaxN api d) (api.moves s) ⊥ alpha beta s
                  (c + 1)).2 ≤
                  (c + 1) + (api.moves s).length * nodeBound B d :=
                    maxLoopN_count api _ _ (fun a b mx2 t c2 => ihd a b mx2 t c2)
                      _ _ _ _ s _
                _ ≤ c + (1 + B * nodeBound B d) := by omega
          | false =>
              calc (minLoopN api (minimaxN api d) (api.moves s) ⊤ alpha beta s
                  (c + 1)).2 ≤
                  (c + 1) + (api.moves s).length * nodeBound B d :=
                    minLoopN_count api _ _ (fun a b mx2 t c2 => ihd a b mx2 t c2)
                      _ _ _ _ s _
                _ ≤ c + (1 + B * nodeBound B d) := by omega

theorem rootLoopN_count {μ σ : Type} (api : RulesApi μ σ)
    (mmN : JVal → JVal → Bool → σ → Nat → (JVal × σ) × Nat) (nb : Nat)
    (hb : ∀ alpha beta mx t c, (mmN alpha beta mx t c).2 ≤ c + nb) :
    ∀ (l : List μ) (bm : Option μ) (bv alpha beta : JVal) (s : σ) (c : Nat),
      (rootLoopN api mmN l bm bv alpha beta s c).2 ≤ c + l.length * nb := by
  intro l
  induction l with
  | nil =>
      intro bm bv alpha beta s c
      simp
      exact Nat.le_refl c
  | cons m rest ihl =>
      intro bm bv alpha beta s c
      rw [rootLoopN]
      have hlen : (m :: rest).length * nb = rest.length * nb + nb := by
        rw [List.length_cons, Nat.succ_mul]
      have hr2 : (mmN (jneg beta) (jneg alpha) false ((api.applyMove s m).getD s)
          c).2 ≤ c + nb := hb _ _ false _ c
      by_cases hcut : beta ≤ max alpha (jneg (mmN (jneg beta) (jneg alpha) false
          ((api.applyMove s m).getD s) c).1.1)
      · simp only [if_pos hcut]
        calc (mmN (jneg beta) (jneg alpha) false ((api.applyMove s m).getD s)
            c).2 ≤ c + nb := hr2
          _ ≤ c + (m :: rest).length * nb := by
              rw [hlen]
              omega
      · simp only [if_neg hcut]
        calc (rootLoopN api mmN rest _ _ _ beta _
            (mmN (jneg beta) (jneg alpha) false ((api.applyMove s m).getD s)
              c).2).2 ≤
            (mmN (jneg beta) (jneg alpha) false ((api.applyMove s m).getD s)
              c).2 + rest.length * nb := ihl _ _ _ beta _ _
          _ ≤ c + (m :: rest).length * nb := by
              rw [hlen]
              omega

theorem orderMoves_length {μ σ : Type} (api : RulesApi μ σ) (rA rB : Nat → ℚ)
    (moves : List μ) : (orderMoves api rA rB moves).length = moves.length :=
  (orderMoves_perm api rA rB moves).length_eq

/-- C9: the search is a finite computation bounded by the depth alone
given a branching bound: the node counter incremented at every minimax
entry (the source yields every 500 counts, with no effect on any search
value) is bounded by nodeBound B d where B bounds the legal-move counts,
the instrumented search computes exactly the value and state of minimax,
and a full findBestMove visits at most B * nodeBound B (depth - 1)
nodes. -/
theorem c9_theorem {μ σ : Type} (api : RulesApi μ σ) (B : Nat)
    (hB : ∀ t, (api.moves t).length ≤ B) :
    (∀ (d : Nat) (alpha beta : JVal) (mx : Bool) (s : σ) (c : Nat),
      (minimaxN api d alpha beta mx s c).1 = minimax api d alpha beta mx s ∧
      (minimaxN api d alpha beta mx s c).2 ≤ c + nodeBound B d) ∧
    (∀ (rA rB : Nat → ℚ) (d : Nat) (s : σ),
      (findBestMoveN api rA rB d s).1 = findBestMove api rA rB d s ∧
      (findBestMoveN api rA rB d s).2 ≤ B * nodeBound B (d - 1)) := by
  constructor
  · intro d alpha beta mx s c
    exact ⟨minimaxN_fst api d alpha beta mx s c, minimaxN_count api B hB d alpha beta mx s c⟩
  · intro rA rB d s
    constructor
    · rw [findBestMoveN, findBestMove]
      by_cases he : (api.moves s).isEmpty
      · simp only [if_pos he]
      · simp only [if_neg he]
        exact rootLoopN_fst api _ _ (fun a b mx t c => minimaxN_fst api (d - 1) a b mx t c)
          _ none ⊥ ⊥ ⊤ s 0
    · rw [findBestMoveN]
      by_cases he : (api.moves s).isEmpty
      · simp only [if_pos he]
        exact Nat.zero_le _
      · simp only [if_neg he]
        calc (rootLoopN api (minimaxN api (d - 1))
            (orderMoves api rA rB (api.moves s)) none ⊥ ⊥ ⊤ s 0).2 ≤
            0 + (orderMoves api rA rB (api.moves s)).length * nodeBound B (d - 1) :=
              rootLoopN_count api _ _
                (fun a b mx t c => minimaxN_count api B hB (d - 1) a b mx t c)
                _ none ⊥ ⊥ ⊤ s 0
          _ ≤ B * nodeBound B (d - 1) := by
              rw [orderMoves_length, Nat.zero_add]
              exact Nat.mul_le_mul_right _ (hB s)

/-- C9 witness: on the toy engine with branching bound 2, the depth-2
search visits at most 2 * nodeBound 2 1 nodes. -/
theorem c9_witness :
    (findBestMoveN toyApi (fun _ => 0) (fun _ => 0) 2 []).2 ≤ 2 * nodeBound 2 1 :=
  ((c9_theorem toyApi 2 (fun t => by
    by_cases h : t.length ≥ 2 <;> simp [toyApi, h])).2 (fun _ => 0) (fun _ => 0) 2 []).2

theorem floor_unif (n i : Nat) (r : ℚ) (hn : 0 < n) (h0 : 0 ≤ r) (h1 : r < 1)
    (hi : i < n) :
    ((⌊r * (n : ℚ)⌋).toNat = i ↔ ((i : ℚ) / n ≤ r ∧ r < ((i : ℚ) + 1) / n)) := by
  have hpos : (0 : ℚ) < (n : ℚ) := by
    exact_mod_cast hn
  have hnn : (0 : ℤ) ≤ ⌊r * (n : ℚ)⌋ := Int.floor_nonneg.mpr (by positivity)
  have hcast : ((⌊r * (n : ℚ)⌋).toNat = i) ↔ (⌊r * (n : ℚ)⌋ = (i : ℤ)) := by
    omega
  rw [hcast, Int.floor_eq_iff]
  rw [div_le_iff hpos, lt_div_iff hpos]
  constructor
  · intro ⟨ha, hb⟩
    constructor
    · exact_mod_cast ha
    · exact_mod_cast hb
  · intro ⟨ha, hb⟩
    constructor
    · exact_mod_cast ha
    · exact_mod_cast hb

/-- C6: the difficulty dispatch maps medium, hard and grandmaster to
findBestMove at depths 2, 3 and 4; easy is the non-search policy that,
when a capture exists and the first random draw is below 0.3 (an event
of probability 0.3 for a uniform draw on [0, 1)), picks the capture at
index floor(r2 * numCaptures) and otherwise the move at index
floor(r3 * numMoves) of the full list; the final conjunct shows each
index i is selected exactly for draws in [i/n, (i+1)/n), intervals of
equal length 1/n, so the selection within each branch is uniform. -/
theorem c6_theorem {μ σ : Type} (api : RulesApi μ σ) (r1 r2 r3 : ℚ)
    (rA rB : Nat → ℚ) (s : σ) :
    (selectMoveByDifficulty api r1 r2 r3 rA rB Difficulty.medium s =
      (if (api.moves s).isEmpty then (none, s) else findBestMove api rA rB 2 s)) ∧
    (selectMoveByDifficulty api r1 r2 r3 rA rB Difficulty.hard s =
      (if (api.moves s).isEmpty then (none, s) else findBestMove api rA rB 3 s)) ∧
    (selectMoveByDifficulty api r1 r2 r3 rA rB Difficulty.grandmaster s =
      (if (api.moves s).isEmpty then (none, s) else findBestMove api rA rB 4 s)) ∧
    (selectMoveByDifficulty api r1 r2 r3 rA rB Difficulty.easy s =
      (if (api.moves s).isEmpty then (none, s)
       else (getEasyMove api r1 r2 r3 (api.moves s), s))) ∧
    (∀ moves : List μ,
      ((moves.filter (fun m => api.captured m)).length > 0 ∧ r1 < (0.3 : ℚ) →
        getEasyMove api r1 r2 r3 moves =
          (moves.filter (fun m => api.captured m)).get?
            (⌊r2 * ((moves.filter (fun m => api.captured m)).length : ℚ)⌋).toNat) ∧
      (¬ ((moves.filter (fun m => api.captured m)).length > 0 ∧ r1 < (0.3 : ℚ)) →
        getEasyMove api r1 r2 r3 moves =
          moves.get? (⌊r3 * (moves.length : ℚ)⌋).toNat)) ∧
    (∀ (n i : Nat) (r : ℚ), 0 < n → 0 ≤ r → r < 1 → i < n →
      ((⌊r * (n : ℚ)⌋).toNat = i ↔ ((i : ℚ) / n ≤ r ∧ r < ((i : ℚ) + 1) / n))) := by
  refine ⟨?_, ?_, ?_, ?_, ?_, ?_⟩
  · rfl
  · rfl
  · rfl
  · rfl
  · intro moves
    constructor
    · intro h
      rw [getEasyMove, if_pos h]
    · intro h
      rw [getEasyMove, if_neg h]
  · intro n i r hn h0 h1 hi
    exact floor_unif n i r hn h0 h1 hi

/-- C6 witness: the medium dispatch on the toy engine and the index
characterization for a two-element list at draw 0. -/
theorem c6_witness :
    (selectMoveByDifficulty toyApi 0 0 0 (fun _ => 0) (fun _ => 0)
        Difficulty.medium [] =
      (if (toyApi.moves []).isEmpty then (none, ([] : List Nat))
       else findBestMove toyApi (fun _ => 0) (fun _ => 0) 2 [])) ∧
    ((⌊(0 : ℚ) * ((2 : Nat) : ℚ)⌋).toNat = 0 ↔
      (((0 : Nat) : ℚ) / (2 : Nat) ≤ 0 ∧ (0 : ℚ) < (((0 : Nat) : ℚ) + 1) / (2 : Nat))) :=
  ⟨(c6_theorem toyApi 0 0 0 (fun _ => 0) (fun _ => 0) []).1,
   (c6_theorem toyApi 0 0 0 (fun _ => 0) (fun _ => 0) []).2.2.2.2.2 2 0 0
     (by norm_num) (le_refl 0) (by norm_num) (by norm_num)⟩

/-! ### orderMoves: shuffle structure and uniformity (C7) -/

theorem choiceIdx_le {n : Nat} (v : FyChoices n) (i : Nat) : choiceIdx v i ≤ i := by
  unfold choiceIdx
  split
  · rename_i h
    exact Nat.le_of_lt_succ (Nat.lt_of_lt_of_le ((v ⟨i - 1, by omega⟩).2)
      (show i - 1 + 2 ≤ i + 1 by omega))
  · exact Nat.zero_le i

theorem choiceIdx_spec {n : Nat} (v : FyChoices n) (k : Fin n) :
    choiceIdx v (k.1 + 1) = (v k).1 := by
  unfold choiceIdx
  rw [dif_pos ⟨Nat.le_add_left 1 k.1, by have := k.2; omega⟩]
  have hk2 : (⟨k.1 + 1 - 1, by have := k.2; omega⟩ : Fin n) = k :=
    Fin.ext (by simp)
  exact congrArg (fun j : Fin n => (v j).1) hk2

theorem swapL_get_other {α : Type} (a : List α) (i j k : Nat) (hki : k ≠ i)
    (hkj : k ≠ j) : (swapL a i j).get? k = a.get? k := by
  unfold swapL
  cases hgi : a.get? i with
  | none => rfl
  | some x =>
      cases hgj : a.get? j with
      | none => rfl
      | some y =>
          rw [List.get?_set_ne _ _ (fun h => hkj h.symm),
            List.get?_set_ne _ _ (fun h => hki h.symm)]

theorem swapL_get_fst {α : Type} (a : List α) (i j : Nat) (hi : i < a.length)
    (hj : j < a.length) : (swapL a i j).get? i = a.get? j := by
  unfold swapL
  cases hgi : a.get? i with
  | none =>
      rw [List.get?_eq_get hi] at hgi
      exact absurd hgi (by simp)
  | some x =>
      cases hgj : a.get? j with
      | none =>
          rw [List.get?_eq_get hj] at hgj
          exact absurd hgj (by simp)
      | some y =>
          show ((a.set i y).set j x).get? i = some y
          by_cases hij : i = j
          · subst hij
            rw [hgi] at hgj
            injection hgj with hxy
            subst hxy
            exact List.get?_set_eq_of_lt _ (by rw [List.length_set]; exact hi)
          · rw [List.get?_set_ne _ _ (fun h => hij h.symm)]
            exact List.get?_set_eq_of_lt _ hi

theorem fyIdx_get_high {α : Type} (idx : Nat → Nat) (hidx : ∀ m, idx m ≤ m) :
    ∀ (i : Nat) (a : List α) (k : Nat), i < k → (fyIdx idx i a).get? k = a.get? k := by
  intro i
  induction i with
  | zero => intro a k _; rfl
  | succ n ih =>
      intro a k hk
      rw [fyIdx]
      rw [ih (swapL a (n + 1) (idx (n + 1))) k (by omega)]
      exact swapL_get_other a (n + 1) (idx (n + 1)) k (by omega)
        (by have h1 := hidx (n + 1); omega)

theorem fyIdx_congr {α : Type} (idx1 idx2 : Nat → Nat) :
    ∀ i : Nat, (∀ m, 1 ≤ m → m ≤ i → idx1 m = idx2 m) →
      ∀ a : List α, fyIdx idx1 i a = fyIdx idx2 i a := by
  intro i
  induction i with
  | zero => intro _ a; rfl
  | succ n ih =>
      intro h a
      rw [fyIdx, fyIdx, h (n + 1) (by omega) (by omega)]
      exact ih (fun m hm1 hm2 => h m hm1 (by omega)) _

theorem shuffleArray_eq_fyRun {α : Type} (rand : Nat → ℚ)
    (hr : ∀ i, 0 ≤ rand i ∧ rand i < 1) (a : List α) :
    shuffleArray rand a = fyRun (choicesOfRand rand hr (a.length - 1)) a := by
  unfold shuffleArray fyRun
  exact fyIdx_congr (randIdx rand)
    (choiceIdx (choicesOfRand rand hr (a.length - 1))) (a.length - 1)
    (fun m h1 h2 => by
      unfold choiceIdx
      rw [dif_pos ⟨h1, h2⟩]
      show randIdx rand m = randIdx rand (m - 1 + 1)
      rw [Nat.sub_add_cancel h1]) a

theorem fyIdx_inj_idx {α : Type} :
    ∀ (i : Nat) (a : List α) (idx1 idx2 : Nat → Nat), a.Nodup → i < a.length →
      (∀ m, idx1 m ≤ m) → (∀ m, idx2 m ≤ m) →
      fyIdx idx1 i a = fyIdx idx2 i a →
      ∀ k, 1 ≤ k → k ≤ i → idx1 k = idx2 k := by
  intro i
  induction i with
  | zero =>
      intro a idx1 idx2 _ _ _ _ _ k hk1 hk2
      omega
  | succ n ih =>
      intro a idx1 idx2 hnd hlen h1 h2 heq k hk1 hk2
      have hb1 : (fyIdx idx1 (n + 1) a).get? (n + 1) = a.get? (idx1 (n + 1)) := by
        rw [fyIdx]
        rw [fyIdx_get_high idx1 h1 n (swapL a (n + 1) (idx1 (n + 1))) (n + 1)
          (Nat.lt_succ_self n)]
        exact swapL_get_fst a (n + 1) (idx1 (n + 1)) hlen
          (by have := h1 (n + 1); omega)
      have hb2 : (fyIdx idx2 (n + 1) a).get? (n + 1) = a.get? (idx2 (n + 1)) := by
        rw [fyIdx]
        rw [fyIdx_get_high idx2 h2 n (swapL a (n + 1) (idx2 (n + 1))) (n + 1)
          (Nat.lt_succ_self n)]
        exact swapL_get_fst a (n + 1) (idx2 (n + 1)) hlen
          (by have := h2 (n + 1); omega)
      have hsome : a.get? (idx1 (n + 1)) = a.get? (idx2 (n + 1)) := by
        rw [← hb1, ← hb2, heq]
      have hidx_eq : idx1 (n + 1) = idx2 (n + 1) :=
        List.get?_inj (by have := h1 (n + 1); omega) hnd hsome
      by_cases hk : k = n + 1
      · rw [hk]
        exact hidx_eq
      · have heq2 := heq
        rw [fyIdx, fyIdx] at heq2
        rw [← hidx_eq] at heq2
        exact ih (swapL a (n + 1) (idx1 (n + 1))) idx1 idx2
          ((swapL_perm a (n + 1) (idx1 (n + 1))).nodup_iff.mpr hnd)
          (by rw [(swapL_perm a (n + 1) (idx1 (n + 1))).length_eq]; omega)
          h1 h2 heq2 k hk1 (by omega)

theorem fyRun_inj {α : Type} (a : List α) (ha : a.Nodup) (hne : a ≠ [])
    (v w : FyChoices (a.length - 1)) (h : fyRun v a = fyRun w a) : v = w := by
  have hlen : a.length - 1 < a.length := by
    cases a with
    | nil => exact absurd rfl hne
    | cons x xs => simp
  have hagree := fyIdx_inj_idx (a.length - 1) a (choiceIdx v) (choiceIdx w) ha hlen
    (choiceIdx_le v) (choiceIdx_le w) h
  funext k
  have hk := hagree (k.1 + 1) (by omega) (by have := k.2; omega)
  rw [choiceIdx_spec v k, choiceIdx_spec w k] at hk
  exact Fin.ext hk

theorem prod_range_add_two (n : Nat) :
    (∏ i ∈ Finset.range n, (i + 2)) = Nat.factorial (n + 1) := by
  induction n with
  | zero => rfl
  | succ m ih =>
      rw [Finset.prod_range_succ, ih, Nat.factorial_succ (m + 1)]
      ring

theorem card_fyChoices (n : Nat) :
    Fintype.card (FyChoices n) = Nat.factorial (n + 1) := by
  simp only [Fintype.card_pi, Fintype.card_fin]
  rw [Fin.prod_univ_eq_prod_range (fun i => i + 2) n]
  exact prod_range_add_two n

theorem fyRun_surj {α : Type} [DecidableEq α] (a : List α) (ha : a.Nodup)
    (hne : a ≠ []) (t : List α) (ht : t.Perm a) :
    ∃ v : FyChoices (a.length - 1), fyRun v a = t := by
  have hlen1 : 1 ≤ a.length := by
    cases a with
    | nil => exact absurd rfl hne
    | cons x xs => exact Nat.succ_le_succ (Nat.zero_le _)
  have hinj : Function.Injective (fun v : FyChoices (a.length - 1) => fyRun v a) :=
    fun v w h => fyRun_inj a ha hne v w h
  have himg : (Finset.univ.image (fun v : FyChoices (a.length - 1) => fyRun v a))
      ⊆ a.permutations.toFinset := by
    intro t2 ht2
    rw [Finset.mem_image] at ht2
    obtain ⟨v, _, hv⟩ := ht2
    rw [List.mem_toFinset, List.mem_permutations, ← hv]
    exact fyIdx_perm _ _ _
  have hcard : (a.permutations.toFinset).card ≤
      (Finset.univ.image (fun v : FyChoices (a.length - 1) => fyRun v a)).card := by
    rw [Finset.card_image_of_injective Finset.univ hinj, Finset.card_univ,
      card_fyChoices, List.toFinset_card_of_nodup (List.nodup_permutations a ha),
      List.length_permutations]
    exact le_of_eq (congrArg Nat.factorial (by omega))
  have heqs : Finset.univ.image (fun v : FyChoices (a.length - 1) => fyRun v a) =
      a.permutations.toFinset := Finset.eq_of_subset_of_card_le himg hcard
  have htm : t ∈ a.permutations.toFinset := by
    rw [List.mem_toFinset, List.mem_permutations]
    exact ht
  rw [← heqs, Finset.mem_image] at htm
  obtain ⟨v, _, hv⟩ := htm
  exact ⟨v, hv⟩

theorem fyRun_exists_unique {α : Type} [DecidableEq α] (a : List α) (ha : a.Nodup)
    (t : List α) (ht : t.Perm a) :
    ∃! v : FyChoices (a.length - 1), fyRun v a = t := by
  by_cases hne : a = []
  · subst hne
    have ht0 : t = [] := List.length_eq_zero.mp (by simpa using ht.length_eq)
    refine ⟨fun k => k.elim0, ?_, ?_⟩
    · rw [ht0]
      rfl
    · intro w _
      funext k
      exact k.elim0
  · obtain ⟨v, hv⟩ := fyRun_surj a ha hne t ht
    exact ⟨v, hv, fun w hw => fyRun_inj a ha hne w v (hw.trans hv.symm)⟩

/-- C7: orderMoves is a permutation of its input that lists the shuffled
capture group before the shuffled non-capture group, so every capture precedes
every non-capture; each shuffleArray call is exactly the Fisher-Yates run
driven by the choice vector its random stream encodes, and over a
duplicate-free group every rearrangement of the group is produced by exactly
one choice vector, so a uniform draw of the vector yields the uniform shuffle
of each group. -/
theorem c7_theorem {μ σ : Type} [DecidableEq μ] (api : RulesApi μ σ)
    (rA rB : Nat → ℚ) (hrA : ∀ i, 0 ≤ rA i ∧ rA i < 1)
    (hrB : ∀ i, 0 ≤ rB i ∧ rB i < 1) (moves : List μ) :
    (orderMoves api rA rB moves).Perm moves ∧
    orderMoves api rA rB moves =
      shuffleArray rA (moves.filter (fun m => api.captured m)) ++
        shuffleArray rB (moves.filter (fun m => !api.captured m)) ∧
    (∀ m ∈ shuffleArray rA (moves.filter (fun m => api.captured m)),
      api.captured m = true) ∧
    (∀ m ∈ shuffleArray rB (moves.filter (fun m => !api.captured m)),
      api.captured m = false) ∧
    shuffleArray rA (moves.filter (fun m => api.captured m)) =
      fyRun (choicesOfRand rA hrA
          ((moves.filter (fun m => api.captured m)).length - 1))
        (moves.filter (fun m => api.captured m)) ∧
    shuffleArray rB (moves.filter (fun m => !api.captured m)) =
      fyRun (choicesOfRand rB hrB
          ((moves.filter (fun m => !api.captured m)).length - 1))
        (moves.filter (fun m => !api.captured m)) ∧
    ((moves.filter (fun m => api.captured m)).Nodup →
      ∀ t, t.Perm (moves.filter (fun m => api.captured m)) →
        ∃! v : FyChoices ((moves.filter (fun m => api.captured m)).length - 1),
          fyRun v (moves.filter (fun m => api.captured m)) = t) ∧
    ((moves.filter (fun m => !api.captured m)).Nodup →
      ∀ t, t.Perm (moves.filter (fun m => !api.captured m)) →
        ∃! v : FyChoices ((moves.filter (fun m => !api.captured m)).length - 1),
          fyRun v (moves.filter (fun m => !api.captured m)) = t) := by
  refine ⟨orderMoves_perm api rA rB moves, rfl, ?_, ?_,
    shuffleArray_eq_fyRun rA hrA _, shuffleArray_eq_fyRun rB hrB _,
    fun hnd t ht => fyRun_exists_unique _ hnd t ht,
    fun hnd t ht => fyRun_exists_unique _ hnd t ht⟩
  · intro m hm
    exact List.of_mem_filter ((shuffleArray_perm rA _).mem_iff.mp hm)
  · intro m hm
    have hm2 : m ∈ moves.filter (fun m2 => !api.captured m2) :=
      (shuffleArray_perm rB (moves.filter (fun m2 => !api.captured m2))).mem_iff.mp hm
    have h3 : (!api.captured m) = true := (List.mem_filter.mp hm2).2
    cases hcap : api.captured m with
    | false => rfl
    | true =>
        rw [hcap] at h3
        exact absurd h3 (by decide)

/-- C7 witness: at the toy engine with the all-zero random streams and the
move list [0, 1], the streams are valid draws in [0, 1) and the ordered move
list is a permutation of the input. -/
theorem c7_witness :
    (∀ i : Nat, (0 : ℚ) ≤ (fun _ : Nat => (0 : ℚ)) i ∧
      (fun _ : Nat => (0 : ℚ)) i < 1) ∧
    (orderMoves toyApi (fun _ => (0 : ℚ)) (fun _ => (0 : ℚ)) [0, 1]).Perm [0, 1] := by
  have hr : ∀ i : Nat, (0 : ℚ) ≤ (fun _ : Nat => (0 : ℚ)) i ∧
      (fun _ : Nat => (0 : ℚ)) i < 1 :=
    fun i => ⟨le_refl 0, by norm_num⟩
  exact ⟨hr, (c7_theorem toyApi (fun _ => (0 : ℚ)) (fun _ => (0 : ℚ)) hr hr [0, 1]).1⟩
